import Mathlib

set_option maxRecDepth 10000
set_option linter.constructorNameAsVariable false

/-!
Verification development for the MySword-to-EPUB document assembly engine.

The definitions below are a shallow embedding of the Python source
(mysword_to_epub.py).  Python strings are modelled as Lean strings
(lists of characters), Python dicts as association lists with first-match
lookup, Python None via Option, and the regex substitutions of the tag
stripper as explicit fuelled scanners whose fuel (one unit per scan
position, each position consuming at least one character) is initialised
with the length of the string, which always suffices.
-/

namespace MyswordEpub

/-! Decimal rendering of naturals, modelling Python f-string int formatting. -/

def digitChar (d : Nat) : Char :=
  match d with
  | 0 => '0' | 1 => '1' | 2 => '2' | 3 => '3' | 4 => '4'
  | 5 => '5' | 6 => '6' | 7 => '7' | 8 => '8' | 9 => '9'
  | _ => '*'

def digitVal (c : Char) : Nat :=
  match c with
  | '0' => 0 | '1' => 1 | '2' => 2 | '3' => 3 | '4' => 4
  | '5' => 5 | '6' => 6 | '7' => 7 | '8' => 8 | '9' => 9
  | _ => 0

def natStrAux : Nat → Nat → List Char
  | 0, _ => []
  | fuel + 1, n =>
    if n < 10 then [digitChar n]
    else natStrAux fuel (n / 10) ++ [digitChar (n % 10)]

def natStr (n : Nat) : String := ⟨natStrAux (n + 1) n⟩

def valOfDigits (l : List Char) : Nat := l.foldl (fun a c => 10 * a + digitVal c) 0

/-! Characters and pattern elements.  A pattern element is a character
predicate: pc c matches exactly c, ic2 a b matches either of the two ASCII
case variants (modelling re.IGNORECASE on a letter). -/

def isPySpace (c : Char) : Bool :=
  c == ' ' || c == '\t' || c == '\n' || c == '\r' || c == '\x0b' || c == '\x0c'

def pc (c : Char) : Char → Bool := fun x => x == c

def ic2 (a b : Char) : Char → Bool := fun x => x == a || x == b

def matchPre : List (Char → Bool) → List Char → Bool
  | [], _ => true
  | _ :: _, [] => false
  | p :: ps, c :: cs => p c && matchPre ps cs

/-! str.replace with a single-character pattern (used for HTML escaping:
ampersand first, then the angle brackets, exactly as in the source). -/

def replChar (c : Char) (rep : List Char) : List Char → List Char
  | [] => []
  | x :: xs => if x = c then rep ++ replChar c rep xs else x :: replChar c rep xs

def escapeHtml (s : String) : String :=
  ⟨replChar '>' "&gt;".data (replChar '<' "&lt;".data (replChar '&' "&amp;".data s.data))⟩

/-- Maximal leading run of ASCII digits and the remainder. -/
def takeDigits : List Char → List Char × List Char
  | [] => ([], [])
  | c :: cs =>
    if c.isDigit then
      let r := takeDigits cs
      (c :: r.1, r.2)
    else ([], c :: cs)

/-! The tag-stripper scanners.  Each models one re.sub call of
strip_mysword_tags; scanning is left to right, a failed match advances one
character, a successful match continues after the match and never rescans
the replacement. -/

/-- re.sub with a literal pattern and empty replacement (the CM marker). -/
def removeLitF (pat : List (Char → Bool)) : Nat → List Char → List Char
  | _, [] => []
  | 0, s => s
  | fuel + 1, c :: cs =>
    if matchPre pat (c :: cs) then removeLitF pat fuel (List.drop (pat.length - 1) cs)
    else c :: removeLitF pat fuel cs

/-- Lazy search for the earliest close-pattern occurrence; the dot of the
regex does not cross a newline.  Returns the inner content and the
remainder after the close pattern. -/
def findClose (ks : List (Char → Bool)) : List Char → Option (List Char × List Char)
  | [] => none
  | c :: cs =>
    if matchPre ks (c :: cs) then some ([], List.drop (ks.length - 1) cs)
    else if c = '\n' then none
    else
      match findClose ks cs with
      | some (inner, rest) => some (c :: inner, rest)
      | none => none

/-- re.sub for an open/close tag pair with lazy inner content; keep selects
whether the inner content is kept (group replacement) or dropped. -/
def subPairF (keep : Bool) (os ks : List (Char → Bool)) : Nat → List Char → List Char
  | _, [] => []
  | 0, s => s
  | fuel + 1, c :: cs =>
    if matchPre os (c :: cs) then
      match findClose ks (List.drop (os.length - 1) cs) with
      | some (inner, rest) => (if keep then inner else []) ++ subPairF keep os ks fuel rest
      | none => c :: subPairF keep os ks fuel cs
    else c :: subPairF keep os ks fuel cs

/-- Match a numeric-suffixed tag at the head of the string: a literal
open angle bracket, the two prefix letters, digits (one or more when
single is false, exactly one when single is true), and a closing angle
bracket.  Returns the remainder after the tag. -/
def numTagRest (a b : Char) (single : Bool) (s : List Char) : Option (List Char) :=
  match s with
  | c :: x :: y :: rest2 =>
    if c = '<' ∧ x = a ∧ y = b then
      if single then
        match rest2 with
        | d :: e :: tail => if d.isDigit ∧ e = '>' then some tail else none
        | _ => none
      else
        match takeDigits rest2 with
        | ([], _) => none
        | (_ :: _, g :: tail) => if g = '>' then some tail else none
        | (_ :: _, []) => none
    else none
  | _ => none

def subNumTagF (a b : Char) (single : Bool) : Nat → List Char → List Char
  | _, [] => []
  | 0, s => s
  | fuel + 1, c :: cs =>
    match numTagRest a b single (c :: cs) with
    | some tail => subNumTagF a b single fuel tail
    | none => c :: subNumTagF a b single fuel cs

/-- Remainder after the first closing angle bracket, if any. -/
def afterGt : List Char → Option (List Char)
  | [] => none
  | c :: cs => if c = '>' then some cs else afterGt cs

/-- The safety net: remove every remaining angle-bracket tag. -/
def stripAngleF : Nat → List Char → List Char
  | _, [] => []
  | 0, s => s
  | fuel + 1, c :: cs =>
    if c = '<' then
      match afterGt cs with
      | some rest => stripAngleF fuel rest
      | none => c :: stripAngleF fuel cs
    else c :: stripAngleF fuel cs

/-- Collapse every whitespace run to a single space. -/
def collapseWsF : Nat → List Char → List Char
  | _, [] => []
  | 0, s => s
  | fuel + 1, c :: cs =>
    if isPySpace c then ' ' :: collapseWsF fuel (cs.dropWhile isPySpace)
    else c :: collapseWsF fuel cs

/-- str.strip: drop leading and trailing whitespace. -/
def stripWsEnds (s : List Char) : List Char :=
  ((s.dropWhile isPySpace).reverse.dropWhile isPySpace).reverse

def removeLitS (pat : List (Char → Bool)) (s : List Char) : List Char :=
  removeLitF pat s.length s

def subPairS (keep : Bool) (os ks : List (Char → Bool)) (s : List Char) : List Char :=
  subPairF keep os ks s.length s

def subNumTagS (a b : Char) (single : Bool) (s : List Char) : List Char :=
  subNumTagF a b single s.length s

def stripAngleS (s : List Char) : List Char := stripAngleF s.length s

def collapseWsS (s : List Char) : List Char := collapseWsF s.length s

/-! The tag patterns.  For the case-insensitive pairs the opening and the
closing literal denote the same matcher, so a single pattern serves both. -/

def patCM : List (Char → Bool) := [pc '<', pc 'C', pc 'M', pc '>']

def patFI : List (Char → Bool) := [pc '<', ic2 'F' 'f', ic2 'I' 'i', pc '>']

def patFR : List (Char → Bool) := [pc '<', ic2 'F' 'f', ic2 'R' 'r', pc '>']

def patFU : List (Char → Bool) := [pc '<', ic2 'F' 'f', ic2 'U' 'u', pc '>']

def patRF : List (Char → Bool) := [pc '<', ic2 'R' 'r', ic2 'F' 'f', pc '>']

def patTS : List (Char → Bool) := [pc '<', pc 'T', pc 'S', pc '>']

def patTSc : List (Char → Bool) := [pc '<', pc '/', pc 'T', pc 'S', pc '>']

def patQ : List (Char → Bool) := [pc '<', pc 'Q', pc '>']

def patQc : List (Char → Bool) := [pc '<', pc '/', pc 'Q', pc '>']

def patE : List (Char → Bool) := [pc '<', pc 'E', pc '>']

def patEc : List (Char → Bool) := [pc '<', pc '/', pc 'E', pc '>']

def patX : List (Char → Bool) := [pc '<', pc 'X', pc '>']

def patXc : List (Char → Bool) := [pc '<', pc '/', pc 'X', pc '>']

/-- The tag-removal passes of strip_mysword_tags, in source order, up to
and including the safety net. -/
def stripTagPasses (t0 : List Char) : List Char :=
  let t1 := removeLitS patCM t0
  let t2 := subPairS true patFI patFI t1
  let t3 := subPairS true patFR patFR t2
  let t4 := subPairS true patFU patFU t3
  let t5 := subPairS false patRF patRF t4
  let t6 := subPairS true patTS patTSc t5
  let t7 := subPairS true patQ patQc t6
  let t8 := subPairS true patE patEc t7
  let t9 := subPairS true patX patXc t8
  let t10 := subNumTagS 'W' 'G' false t9
  let t11 := subNumTagS 'W' 'H' false t10
  let t12 := subNumTagS 'W' 'T' false t11
  let t13 := subNumTagS 'R' 'X' false t12
  let t14 := subNumTagS 'P' 'F' true t13
  let t15 := subNumTagS 'P' 'I' true t14
  stripAngleS t15

/-- strip_mysword_tags on an actual string (the early return fires on the
empty string; the falsy None input is handled by the Option wrapper
below). -/
def strip_mysword_tags (text : String) : String :=
  if text = "" then text
  else ⟨stripWsEnds (collapseWsS (stripTagPasses text.data))⟩

/-- strip_mysword_tags as called with a possibly-None argument: a falsy
input is returned unchanged. -/
def strip_mysword_tags_py (text : Option String) : Option String :=
  match text with
  | none => none
  | some s => if s = "" then some s else some (strip_mysword_tags s)

/-- book_title_formatter: if the name starts with one or more digits
immediately followed by a character that is not a digit, a period or
whitespace, insert a period and a space after the digit run. -/
def book_title_formatter (s : String) : String :=
  match takeDigits s.data with
  | ([], _) => s
  | (_, []) => s
  | (ds, c :: rest) =>
    if c.isDigit || c == '.' || isPySpace c then s
    else ⟨ds ++ '.' :: ' ' :: c :: rest⟩

/-- Concatenation of a list of strings with the empty separator,
modelling a join on the empty string. -/
def joinAll : List String → String
  | [] => ""
  | s :: rest => s ++ joinAll rest

/-! The assembler's input maps.  Dicts become association lists with
first-match lookup; the key lists of genuine dicts are duplicate-free,
which appears as a hypothesis where a claim needs it. -/

abbrev Books := List (Nat × String)

abbrev ChapterVerses := List (Nat × Option String)

abbrev VerseBook := List (Nat × ChapterVerses)

abbrev Verses := List (Nat × VerseBook)

abbrev Coord := Nat × Nat × Nat

abbrev XrefMap := List (Coord × List Coord)

/-- dict.get model: first entry with the key, if any. -/
def pyGetB (books : Books) (bid : Nat) : Option String :=
  (books.find? (fun p => p.1 == bid)).map Prod.snd

/-- dict.get with a default. -/
def pyGetBD (books : Books) (bid : Nat) (d : String) : String :=
  (pyGetB books bid).getD d

/-- Python truthiness of an optional string: None and the empty string
are falsy. -/
def truthyName (o : Option String) : Bool :=
  match o with
  | none => false
  | some s => !(s == "")

/-- The effective name of a book: the looked-up name when it is truthy,
nothing otherwise.  The assembler's per-book behaviour depends on books
only through this value. -/
def getName (books : Books) (bid : Nat) : Option String :=
  match pyGetB books bid with
  | none => none
  | some n => if n = "" then none else some n

def vLookup (verses : Verses) (bid : Nat) : VerseBook :=
  ((verses.find? (fun p => p.1 == bid)).map Prod.snd).getD []

def cLookup (vb : VerseBook) (ch : Nat) : ChapterVerses :=
  ((vb.find? (fun p => p.1 == ch)).map Prod.snd).getD []

/-- sorted(dict.keys()). -/
def sortedKeysN {α : Type} (l : List (Nat × α)) : List Nat :=
  List.insertionSort (fun a b => a ≤ b) (l.map Prod.fst)

/-- Dict membership of a verse coordinate. -/
def xMem (m : XrefMap) (k : Coord) : Bool :=
  (m.find? (fun p => p.1 == k)).isSome

def xGet (m : XrefMap) (k : Coord) : List Coord :=
  ((m.find? (fun p => p.1 == k)).map Prod.snd).getD []

/-- Lexicographic comparison on verse coordinates (Python tuple order). -/
def tripLe (x y : Coord) : Bool :=
  if x.1 < y.1 then true
  else if y.1 < x.1 then false
  else if x.2.1 < y.2.1 then true
  else if y.2.1 < x.2.1 then false
  else decide (x.2.2 ≤ y.2.2)

/-! Names appearing in the package: chapter file names, manifest item
ids, navigation ids and anchors, exactly as the f-strings build them. -/

def chapFname (b c : Nat) : String :=
  ⟨'b' :: (natStr b).data ++ 'c' :: (natStr c).data ++ ".html".data⟩

def itemId (b c : Nat) : String :=
  ⟨(natStr b).data ++ '-' :: (natStr c).data⟩

def itemId3 (b c v : Nat) : String :=
  ⟨(natStr b).data ++ '-' :: (natStr c).data ++ '-' :: (natStr v).data⟩

def anchorName (b c v : Nat) : String :=
  ⟨'x' :: (natStr b).data ++ '-' :: (natStr c).data ++ '-' :: (natStr v).data⟩

def xrefHref (b c v : Nat) : String := "x.html#" ++ anchorName b c v

def indicatorLink (b c v : Nat) : String :=
  "<a href=\"" ++ xrefHref b c v ++ "\" class=\"x\">⊗</a>"

/-- generate_verse_indicators: the three populated cases return the same
link; with both maps empty, or the verse in neither map, the indicator is
empty. -/
def generate_verse_indicators (bid chap verse : Nat) (xf xt : XrefMap) : String :=
  if xf.isEmpty && xt.isEmpty then ""
  else
    let hasF := !xf.isEmpty && xMem xf (bid, chap, verse)
    let hasT := !xt.isEmpty && xMem xt (bid, chap, verse)
    if hasF && hasT then indicatorLink bid chap verse
    else if hasF then indicatorLink bid chap verse
    else if hasT then indicatorLink bid chap verse
    else ""

/-! The cross-reference section. -/

def xrefVerseLabel (books : Books) (b : Nat) : String :=
  book_title_formatter (pyGetBD books b ("Book " ++ natStr b))

def xrefLinkItem (books : Books) (t : Coord) : String :=
  "<li><a href=\"" ++ chapFname t.1 t.2.1 ++ "#" ++ natStr t.2.2 ++ "\">" ++
    xrefVerseLabel books t.1 ++ " " ++ natStr t.2.1 ++ ":" ++ natStr t.2.2 ++ "</a></li>"

def xrefHeading (books : Books) (k : Coord) : String :=
  "<h2 id=\"" ++ anchorName k.1 k.2.1 k.2.2 ++ "\"><a href=\"" ++ chapFname k.1 k.2.1 ++
    "#" ++ natStr k.2.2 ++ "\">↩</a> " ++ xrefVerseLabel books k.1 ++ " " ++
    natStr k.2.1 ++ ":" ++ natStr k.2.2 ++ " <a href=\"i.html#b\">⇑</a></h2>"

def xrefFromBlock (books : Books) (xf : XrefMap) (k : Coord) : List String :=
  if !xf.isEmpty && xMem xf k then
    "<h4>From</h4>" :: "<ul>" :: (xGet xf k).map (xrefLinkItem books) ++ ["</ul>"]
  else []

def xrefToBlock (books : Books) (xt : XrefMap) (k : Coord) : List String :=
  if !xt.isEmpty && xMem xt k then
    "<h3>To</h3>" :: "<ul>" :: (xGet xt k).map (xrefLinkItem books) ++ ["</ul>"]
  else []

def xrefEntry (books : Books) (xf xt : XrefMap) (k : Coord) : List String :=
  xrefHeading books k :: (xrefFromBlock books xf k ++ xrefToBlock books xt k)

/-- Hyperlink targets inserted by the entry of one cross-referenced verse:
the back link to the chapter page, the up link to the index, and the link
of every listed coordinate. -/
def xrefEntryHrefs (books : Books) (xf xt : XrefMap) (k : Coord) : List String :=
  (chapFname k.1 k.2.1 ++ "#" ++ natStr k.2.2) :: "i.html#b" ::
    ((if !xf.isEmpty && xMem xf k then
        (xGet xf k).map (fun t => chapFname t.1 t.2.1 ++ "#" ++ natStr t.2.2)
      else []) ++
     (if !xt.isEmpty && xMem xt k then
        (xGet xt k).map (fun t => chapFname t.1 t.2.1 ++ "#" ++ natStr t.2.2)
      else []))

/-- The merged, deduplicated, coordinate-sorted list of verses appearing
in either index (sorted(set union)). -/
def xrefKeys (xf xt : XrefMap) : List Coord :=
  List.insertionSort (fun x y => tripLe x y = true)
    ((xf.map Prod.fst ++ xt.map Prod.fst).dedup)

def xrefHeader : String :=
  "<html><head><title>X</title><link rel=\"stylesheet\" href=\"styles.css\"/></head><body><h1 id=\"c\">X</h1>"

def generate_cross_reference_section (books : Books) (xf xt : XrefMap) : Option String :=
  if xf.isEmpty && xt.isEmpty then none
  else
    let allV := (xf.map Prod.fst ++ xt.map Prod.fst).dedup
    if allV.isEmpty then none
    else
      some (joinAll (xrefHeader ::
        ((xrefKeys xf xt).flatMap (xrefEntry books xf xt) ++ ["</body></html>"])))

def xrefPageHrefs (books : Books) (xf xt : XrefMap) : List String :=
  (xrefKeys xf xt).flatMap (xrefEntryHrefs books xf xt)

/-! The index page. -/

def indexCell (e : Nat × Nat × String) : String :=
  "<td><a href=\"" ++ chapFname e.1 e.2.1 ++ "\">" ++ book_title_formatter e.2.2 ++ "</a></td>"

def padCells (cells : List String) : List String :=
  cells ++ List.replicate (4 - cells.length) "<td></td>"

def rows4 {α : Type} : List α → List (List α)
  | [] => []
  | a :: b :: c :: d :: rest => [a, b, c, d] :: rows4 rest
  | l => [l]

def indexRow (row : List (Nat × Nat × String)) : String :=
  "<tr>" ++ joinAll (padCells (row.map indexCell)) ++ "</tr>"

def indexTable (bl : List (Nat × Nat × String)) : String :=
  "<table class=\"b\">" ++ joinAll ((rows4 bl).map indexRow) ++ "</table>"

def indexPageContent (bl : List (Nat × Nat × String)) : String :=
  "<html><head><title>Books</title><link rel=\"stylesheet\" href=\"styles.css\"/></head><body><a id=\"b\"/>" ++
    indexTable bl ++ "</body></html>"

def indexHrefs (bl : List (Nat × Nat × String)) : List String :=
  bl.map (fun e => chapFname e.1 e.2.1)

/-- One step of the index-page comprehension: a book missing from the
mapping or with a falsy name contributes nothing; a kept book with no
chapters at all raises (the subscript of the empty sorted key list). -/
def bookEntry (books : Books) (verses : Verses) (bid : Nat) :
    Option (Option (Nat × Nat × String)) :=
  match pyGetB books bid with
  | none => some none
  | some name =>
    if name = "" then some none
    else
      match sortedKeysN (vLookup verses bid) with
      | [] => none
      | first :: _ => some (some (bid, first, name))

/-- Left-to-right evaluation of the comprehension, aborting at the first
failing entry. -/
def optMapList (f : Nat → Option (Option (Nat × Nat × String))) :
    List Nat → Option (List (Nat × Nat × String))
  | [] => some []
  | b :: bs =>
    match f b with
    | none => none
    | some none => optMapList f bs
    | some (some e) => (optMapList f bs).map (fun l => e :: l)

def bookListM (books : Books) (verses : Verses) : Option (List (Nat × Nat × String)) :=
  optMapList (bookEntry books verses) (sortedKeysN verses)

/-! Structured artifacts. -/

structure NavPoint where
  navId : String
  playOrder : Nat
  label : String
  src : String
deriving DecidableEq, Repr, Inhabited

structure PageFile where
  fname : String
  content : String
  hrefs : List String
deriving DecidableEq, Repr, Inhabited

structure VAcc where
  nav : List NavPoint
  lines : List String
  hrefs : List String
  po : Nat
deriving DecidableEq, Repr, Inhabited

structure CAcc where
  files : List PageFile
  manifest : List (String × String)
  spine : List String
  nav : List NavPoint
  po : Nat
deriving DecidableEq, Repr, Inhabited

structure EpubOut where
  bookList : List (Nat × Nat × String)
  index : PageFile
  chapters : List PageFile
  xrefPage : Option String
  manifest : List (String × String)
  spine : List String
  nav : List NavPoint
deriving DecidableEq, Repr, Inhabited

/-! Chapter pages. -/

def chapterFoot : String := "\n</body>\n</html>"

def verseLine (bid chap : Nat) (xf xt : XrefMap) (v : Nat × Option String) : String :=
  let safeText := v.2.getD ""
  let cleanText := strip_mysword_tags safeText
  let escaped := escapeHtml cleanText
  let ind := generate_verse_indicators bid chap v.1 xf xt
  "<a href=\"#" ++ natStr v.1 ++ "\" id=\"" ++ natStr v.1 ++ "\">" ++ natStr v.1 ++
    "</a> " ++ escaped ++ " " ++ ind ++ "<br/>"

def verseHrefs (bid chap : Nat) (xf xt : XrefMap) (v : Nat × Option String) : List String :=
  ("#" ++ natStr v.1) ::
    (if generate_verse_indicators bid chap v.1 xf xt = "" then []
     else [xrefHref bid chap v.1])

def verseNav (bn : String) (bid chap : Nat) (fname : String) (po vnum : Nat) : NavPoint :=
  ⟨itemId3 bid chap vnum, po, bn ++ " " ++ natStr chap ++ ":" ++ natStr vnum,
    fname ++ "#" ++ natStr vnum⟩

def processVerses (bn : String) (bid chap : Nat) (fname : String) (xf xt : XrefMap)
    (po : Nat) : List (Nat × Option String) → VAcc
  | [] => ⟨[], [], [], po⟩
  | v :: rest =>
    let r := processVerses bn bid chap fname xf xt (po + 1) rest
    ⟨verseNav bn bid chap fname po v.1 :: r.nav,
      verseLine bid chap xf xt v :: r.lines,
      verseHrefs bid chap xf xt v ++ r.hrefs,
      r.po⟩

def tocLinkStr (bid : Nat) (chapters : List Nat) : String :=
  joinAll (chapters.map (fun c => "<a href=\"" ++ chapFname bid c ++ "\">" ++ natStr c ++ "</a>"))

def chapterHeading (bn : String) (bid first chap : Nat) (tocLinks : String) : String :=
  if chap = first then
    "<html><head><title>" ++ bn ++ " " ++ natStr chap ++
      "</title><link rel=\"stylesheet\" href=\"styles.css\"/></head><body><h1 id=\"toc\">" ++
      bn ++ "</h1><div class=\"c\">" ++ tocLinks ++ "</div><h2>" ++ bn ++ " " ++ natStr chap ++
      " <a href=\"i.html#b\">⇑</a> <a href=\"#toc\">↑</a></h2>"
  else
    "<html><head><title>" ++ bn ++ " " ++ natStr chap ++
      "</title><link rel=\"stylesheet\" href=\"styles.css\"/></head><body><h2>" ++
      bn ++ " " ++ natStr chap ++
      " <a href=\"i.html#b\">⇑</a> <a href=\"" ++ chapFname bid first ++ "#toc\">↑</a></h2>"

def chapterHeadingHrefs (bid first chap : Nat) (chapters : List Nat) : List String :=
  if chap = first then chapters.map (chapFname bid) ++ ["i.html#b", "#toc"]
  else ["i.html#b", chapFname bid first ++ "#toc"]

def processChapters (bn : String) (bid first : Nat) (tocLinks : String)
    (chapters : List Nat) (vb : VerseBook) (xf xt : XrefMap) (po : Nat) :
    List Nat → CAcc
  | [] => ⟨[], [], [], [], po⟩
  | chap :: rest =>
    let fname := chapFname bid chap
    let vs := cLookup vb chap
    let vr := processVerses bn bid chap fname xf xt (po + 1) vs
    let heading := chapterHeading bn bid first chap tocLinks
    let content := heading ++ joinAll vr.lines ++ chapterFoot
    let pf : PageFile :=
      ⟨"OEBPS/" ++ fname, content, chapterHeadingHrefs bid first chap chapters ++ vr.hrefs⟩
    let chapNav : NavPoint := ⟨itemId bid chap, po, bn ++ " " ++ natStr chap, fname⟩
    let r := processChapters bn bid first tocLinks chapters vb xf xt vr.po rest
    ⟨pf :: r.files,
      (itemId bid chap, fname) :: r.manifest,
      itemId bid chap :: r.spine,
      chapNav :: (vr.nav ++ r.nav),
      r.po⟩

def processBooks (books : Books) (verses : Verses) (xf xt : XrefMap) :
    Nat → List Nat → Option CAcc
  | po, [] => some ⟨[], [], [], [], po⟩
  | po, bid :: rest =>
    match pyGetB books bid with
    | none => processBooks books verses xf xt po rest
    | some name =>
      if name = "" then processBooks books verses xf xt po rest
      else
        let bn := book_title_formatter name
        let vb := vLookup verses bid
        let chapters := sortedKeysN vb
        match chapters with
        | [] => none
        | first :: _ =>
          let bookNav : NavPoint := ⟨natStr bid, po, bn, chapFname bid first⟩
          let tocLinks := tocLinkStr bid chapters
          let c := processChapters bn bid first tocLinks chapters vb xf xt (po + 1) chapters
          match processBooks books verses xf xt c.po rest with
          | none => none
          | some r =>
            some ⟨c.files ++ r.files, c.manifest ++ r.manifest, c.spine ++ r.spine,
              bookNav :: (c.nav ++ r.nav), r.po⟩

/-- The assembler: returns none exactly when the Python function dies in
its catch-all handler (the empty-chapter subscript error); otherwise the
structured package content.  The three fixed scaffolding files and the
archive itself belong to the packaging collaborator and are not
modelled. -/
def create_epub (books : Books) (verses : Verses) (xf xt : XrefMap) : Option EpubOut :=
  match bookListM books verses with
  | none => none
  | some bl =>
    match processBooks books verses xf xt 1 (sortedKeysN verses) with
    | none => none
    | some r =>
      let xc := generate_cross_reference_section books xf xt
      let hasX := match xc with
        | some s => !(s == "")
        | none => false
      some {
        bookList := bl
        index := ⟨"OEBPS/i.html", indexPageContent bl, indexHrefs bl⟩
        chapters := r.files
        xrefPage := xc
        manifest := ("index", "i.html") :: r.manifest ++
          (if hasX then [("xrefs", "x.html")] else [])
        spine := "index" :: r.spine ++ (if hasX then ["xrefs"] else [])
        nav := r.nav ++
          (if hasX then [⟨"x", r.po, "Cross References", "x.html#c"⟩] else [])
      }

/-! Predicates used by the theorems. -/

/-- No closing angle bracket anywhere. -/
def gtFree (s : List Char) : Bool := s.all (fun c => c ≠ '>')

/-- No closing angle bracket after any opening one (no tag can match). -/
def tagFree : List Char → Bool
  | [] => true
  | c :: cs => if c = '<' then gtFree cs else tagFree cs

/-- Every whitespace character is a plain space. -/
def wsOnlySpace (s : List Char) : Bool := s.all (fun c => !isPySpace c || c == ' ')

/-- No two adjacent whitespace characters. -/
def noDoubleWs (s : List Char) : Prop :=
  List.Chain' (fun a b => ¬(isPySpace a = true ∧ isPySpace b = true)) s

/-- A hyperlink that targets the chapter page of book b, with or without
a fragment. -/
def refsBook (b : Nat) (h : String) : Prop :=
  ∃ c, h = chapFname b c ∨ ∃ frag, h = chapFname b c ++ "#" ++ frag

/-- A navigation node whose id or target names book b. -/
def navMentionsBook (b : Nat) (np : NavPoint) : Prop :=
  np.navId = natStr b ∨ (∃ c, np.navId = itemId b c) ∨
    (∃ c v, np.navId = itemId3 b c v) ∨ refsBook b np.src

/-- The coordinates of a cross-reference map never name book b. -/
def xrefAvoidsBook (b : Nat) (m : XrefMap) : Prop :=
  ∀ p ∈ m, p.1.1 ≠ b ∧ ∀ t ∈ p.2, t.1 ≠ b

/-- The three shapes of navigation node generated for one book. -/
def navOfBook (bid : Nat) (np : NavPoint) : Prop :=
  (∃ po bn c, np = ⟨natStr bid, po, bn, chapFname bid c⟩) ∨
  (∃ c po bn, np = ⟨itemId bid c, po, bn, chapFname bid c⟩) ∨
  (∃ c v po bn, np = ⟨itemId3 bid c v, po, bn, chapFname bid c ++ "#" ++ natStr v⟩)

/-- The possible hyperlink targets of a chapter page of book bid. -/
def chapterHrefShape (bid : Nat) (h : String) : Prop :=
  h = "i.html#b" ∨ h = "#toc" ∨ (∃ c, h = chapFname bid c) ∨
  (∃ c, h = chapFname bid c ++ "#toc") ∨ (∃ v, h = "#" ++ natStr v) ∨
  (∃ c v, h = xrefHref bid c v)

/-- Null verse texts replaced by the empty string. -/
def normVerses (verses : Verses) : Verses :=
  verses.map (fun p => (p.1, p.2.map (fun q => (q.1, q.2.map (fun v => (v.1, some (v.2.getD "")))))))

/-! Concrete sample inputs for the closed instances. -/

def exBooks : Books := [(1, "Gen"), (2, "1Sam")]

def exVerses : Verses :=
  [(1, [(1, [(1, some "In the beginning"), (2, none)]), (2, [(1, some "x")])]),
   (2, [(3, [(7, some "y")])])]

def exXf : XrefMap := [((1, 1, 1), [(2, 3, 7)])]

def exXt : XrefMap := [((2, 3, 7), [(1, 1, 1)])]

/-- A mapping that knows only book 1, while verse and cross-reference data
also name book 9. -/
def cxBooks : Books := [(1, "A")]

def cxVerses : Verses := [(1, [(1, [(1, some "t")])]), (9, [(1, [(1, some "u")])])]

def cxXf : XrefMap := [((1, 1, 1), [(9, 1, 1)])]

def cxXt : XrefMap := [((9, 1, 1), [(1, 1, 1)])]

/-- A mapping in which book 2 is present with the empty (falsy) name. -/
def exBooksFalsy : Books := [(1, "Gen"), (2, "")]

/-! # Lemmas

Decimal rendering: fuel irrelevance, digit content, injectivity. -/

theorem natStrAux_fuel (n : Nat) : ∀ f1 f2, n < f1 → n < f2 → natStrAux f1 n = natStrAux f2 n := by
  induction n using Nat.strong_induction_on with
  | _ n ih =>
    intro f1 f2 h1 h2
    obtain ⟨a, rfl⟩ : ∃ a, f1 = a + 1 := ⟨f1 - 1, by omega⟩
    obtain ⟨b, rfl⟩ : ∃ b, f2 = b + 1 := ⟨f2 - 1, by omega⟩
    by_cases h : n < 10
    · simp [natStrAux, h]
    · have hd : n / 10 < n := Nat.div_lt_self (by omega) (by omega)
      simp only [natStrAux, if_neg h]
      rw [ih (n / 10) hd a (n / 10 + 1) (by omega) (by omega),
          ih (n / 10) hd b (n / 10 + 1) (by omega) (by omega)]

theorem natStr_data_eq (n : Nat) : (natStr n).data = natStrAux (n + 1) n := rfl

theorem natStr_data (n f : Nat) (h : n < f) : (natStr n).data = natStrAux f n := by
  rw [natStr_data_eq]
  exact natStrAux_fuel n (n + 1) f (by omega) h

theorem digitChar_isDigit {d : Nat} (h : d < 10) : (digitChar d).isDigit = true := by
  interval_cases d <;> decide

theorem natStrAux_digits (n : Nat) : ∀ f, n < f → ∀ c ∈ natStrAux f n, c.isDigit = true := by
  induction n using Nat.strong_induction_on with
  | _ n ih =>
    intro f hf c hc
    obtain ⟨a, rfl⟩ : ∃ a, f = a + 1 := ⟨f - 1, by omega⟩
    by_cases h : n < 10
    · simp only [natStrAux, if_pos h, List.mem_singleton] at hc
      subst hc
      exact digitChar_isDigit h
    · have hd : n / 10 < n := Nat.div_lt_self (by omega) (by omega)
      simp only [natStrAux, if_neg h, List.mem_append, List.mem_singleton] at hc
      rcases hc with hc | hc
      · exact ih (n / 10) hd a (by omega) c hc
      · subst hc
        exact digitChar_isDigit (Nat.mod_lt _ (by omega))

theorem natStr_digits (n : Nat) : ∀ c ∈ (natStr n).data, c.isDigit = true := by
  rw [natStr_data_eq]
  exact natStrAux_digits n (n + 1) (by omega)

theorem not_mem_natStr {c : Char} (h : ¬ c.isDigit = true) (n : Nat) : c ∉ (natStr n).data :=
  fun hc => h (natStr_digits n c hc)

theorem natStrAux_ne_nil (n f : Nat) (h : n < f) : natStrAux f n ≠ [] := by
  obtain ⟨a, rfl⟩ : ∃ a, f = a + 1 := ⟨f - 1, by omega⟩
  by_cases h10 : n < 10 <;> simp [natStrAux, h10]

theorem natStr_ne_nil (n : Nat) : (natStr n).data ≠ [] := by
  rw [natStr_data_eq]
  exact natStrAux_ne_nil n (n + 1) (by omega)

theorem digitVal_digitChar {d : Nat} (h : d < 10) : digitVal (digitChar d) = d := by
  interval_cases d <;> rfl

theorem valOfDigits_append_one (l : List Char) (c : Char) :
    valOfDigits (l ++ [c]) = 10 * valOfDigits l + digitVal c := by
  simp [valOfDigits, List.foldl_append]

theorem valOf_natStrAux (n : Nat) : ∀ f, n < f → valOfDigits (natStrAux f n) = n := by
  induction n using Nat.strong_induction_on with
  | _ n ih =>
    intro f hf
    obtain ⟨a, rfl⟩ : ∃ a, f = a + 1 := ⟨f - 1, by omega⟩
    by_cases h : n < 10
    · simp only [natStrAux, if_pos h]
      show 10 * 0 + digitVal (digitChar n) = n
      rw [digitVal_digitChar h]
      omega
    · have hd : n / 10 < n := Nat.div_lt_self (by omega) (by omega)
      simp only [natStrAux, if_neg h]
      rw [valOfDigits_append_one, ih (n / 10) hd a (by omega),
          digitVal_digitChar (Nat.mod_lt _ (by omega))]
      omega

theorem natStr_inj {m n : Nat} (h : natStr m = natStr n) : m = n := by
  have hd : (natStr m).data = (natStr n).data := by rw [h]
  have hm := valOf_natStrAux m (m + 1) (by omega)
  have hn := valOf_natStrAux n (n + 1) (by omega)
  rw [← natStr_data_eq] at hm hn
  rw [hd, hn] at hm
  omega

/-! Splitting concatenations at a separator character absent from the two
digit parts. -/

theorem append_sep_inj {sep : Char} :
    ∀ {xs ys u v : List Char}, sep ∉ xs → sep ∉ ys →
      xs ++ sep :: u = ys ++ sep :: v → xs = ys ∧ u = v := by
  intro xs
  induction xs with
  | nil =>
    intro ys u v _ hy h
    cases ys with
    | nil => simpa using h
    | cons b bs =>
      simp only [List.nil_append, List.cons_append, List.cons.injEq] at h
      cases h.1
      exact absurd (List.mem_cons_self _ _) hy
  | cons a as ih =>
    intro ys u v hx hy h
    cases ys with
    | nil =>
      simp only [List.nil_append, List.cons_append, List.cons.injEq] at h
      cases h.1
      exact absurd (List.mem_cons_self _ _) hx
    | cons b bs =>
      simp only [List.cons_append, List.cons.injEq] at h
      have hx' : sep ∉ as := fun hm => hx (List.mem_cons_of_mem _ hm)
      have hy' : sep ∉ bs := fun hm => hy (List.mem_cons_of_mem _ hm)
      have := ih hx' hy' h.2
      exact ⟨by rw [h.1, this.1], this.2⟩

theorem dash_not_mem_natStr (n : Nat) : '-' ∉ (natStr n).data :=
  not_mem_natStr (by decide) n

theorem hash_not_mem_natStr (n : Nat) : '#' ∉ (natStr n).data :=
  not_mem_natStr (by decide) n

theorem string_data_inj {s t : String} (h : s.data = t.data) : s = t := by
  cases s; cases t; simp_all

theorem itemId_inj {b c b' c' : Nat} (h : itemId b c = itemId b' c') : b = b' ∧ c = c' := by
  have hd : (itemId b c).data = (itemId b' c').data := by rw [h]
  simp only [itemId] at hd
  have := append_sep_inj (dash_not_mem_natStr b) (dash_not_mem_natStr b') hd
  exact ⟨natStr_inj (string_data_inj this.1), natStr_inj (string_data_inj this.2)⟩

theorem itemId3_inj {b c v b' c' v' : Nat}
    (h : itemId3 b c v = itemId3 b' c' v') : b = b' ∧ c = c' ∧ v = v' := by
  have hd : (itemId3 b c v).data = (itemId3 b' c' v').data := by rw [h]
  simp only [itemId3, List.cons_append, List.append_assoc] at hd
  have h1 := append_sep_inj (dash_not_mem_natStr b) (dash_not_mem_natStr b') hd
  have h2 := append_sep_inj (dash_not_mem_natStr c) (dash_not_mem_natStr c') h1.2
  exact ⟨natStr_inj (string_data_inj h1.1), natStr_inj (string_data_inj h2.1),
    natStr_inj (string_data_inj h2.2)⟩

theorem itemId_ne_itemId3 (b c b' c' v' : Nat) : itemId b c ≠ itemId3 b' c' v' := by
  intro h
  have hd : (itemId b c).data = (itemId3 b' c' v').data := by rw [h]
  simp only [itemId, itemId3, List.cons_append, List.append_assoc] at hd
  have := append_sep_inj (dash_not_mem_natStr b) (dash_not_mem_natStr b') hd
  have hmem : '-' ∈ (natStr c).data := by
    rw [this.2]
    exact List.mem_append_right _ (List.mem_cons_self _ _)
  exact dash_not_mem_natStr c hmem

theorem natStr_ne_itemId (n b c : Nat) : natStr n ≠ itemId b c := by
  intro h
  have hd : (natStr n).data = (itemId b c).data := by rw [h]
  simp only [itemId] at hd
  have hmem : '-' ∈ (natStr n).data := by
    rw [hd]
    exact List.mem_append_right _ (List.mem_cons_self _ _)
  exact dash_not_mem_natStr n hmem

theorem natStr_ne_itemId3 (n b c v : Nat) : natStr n ≠ itemId3 b c v := by
  intro h
  have hd : (natStr n).data = (itemId3 b c v).data := by rw [h]
  simp only [itemId3] at hd
  have hmem : '-' ∈ (natStr n).data := by
    rw [hd]
    exact List.mem_append_right _ (List.mem_cons_self _ _)
  exact dash_not_mem_natStr n hmem

/-! Chapter file names. -/

theorem chapFname_data (b c : Nat) :
    (chapFname b c).data = 'b' :: (natStr b).data ++ 'c' :: (natStr c).data ++ ".html".data := rfl

theorem chapFname_inj {b c b' c' : Nat} (h : chapFname b c = chapFname b' c') :
    b = b' ∧ c = c' := by
  have hd := congrArg String.data h
  rw [chapFname_data, chapFname_data] at hd
  simp only [List.cons_append, List.append_assoc, List.cons.injEq, true_and] at hd
  have h1 : (natStr b).data = (natStr b').data ∧
      (natStr c).data ++ '.' :: "html".data = (natStr c').data ++ '.' :: "html".data :=
    append_sep_inj (not_mem_natStr (by decide) b) (not_mem_natStr (by decide) b') hd
  have h2 : (natStr c).data ++ '.' :: "html".data = (natStr c').data ++ '.' :: "html".data := h1.2
  have h3 : (natStr c).data = (natStr c').data ∧ "html".data = "html".data :=
    append_sep_inj (not_mem_natStr (by decide) c) (not_mem_natStr (by decide) c') h2
  exact ⟨natStr_inj (string_data_inj h1.1), natStr_inj (string_data_inj h3.1)⟩

theorem chapFname_no_hash (b c : Nat) : '#' ∉ (chapFname b c).data := by
  intro hm
  rw [chapFname_data] at hm
  simp only [List.cons_append, List.append_assoc] at hm
  rcases List.mem_cons.mp hm with h1 | h1
  · exact absurd h1 (by decide)
  rcases List.mem_append.mp h1 with h2 | h2
  · exact hash_not_mem_natStr b h2
  rcases List.mem_cons.mp h2 with h3 | h3
  · exact absurd h3 (by decide)
  rcases List.mem_append.mp h3 with h4 | h4
  · exact hash_not_mem_natStr c h4
  · exact absurd h4 (by decide)

theorem chapFname_head (b c : Nat) : (chapFname b c).data.head? = some 'b' := by
  rw [chapFname_data]
  rfl

theorem hash_append_data (a f : String) : (a ++ "#" ++ f).data = a.data ++ '#' :: f.data := by
  rw [String.data_append, String.data_append]
  simp

theorem href_frag_inj {b c b' c' : Nat} {f1 f2 : String}
    (h : chapFname b c ++ "#" ++ f1 = chapFname b' c' ++ "#" ++ f2) :
    b = b' ∧ c = c' ∧ f1 = f2 := by
  have hd := congrArg String.data h
  rw [hash_append_data, hash_append_data] at hd
  have := append_sep_inj (chapFname_no_hash b c) (chapFname_no_hash b' c') hd
  have hbc := chapFname_inj (string_data_inj this.1)
  exact ⟨hbc.1, hbc.2, string_data_inj this.2⟩

/-! Non-references: which strings can never be a link into book b. -/

theorem not_refsBook_head {b0 : Nat} {s : String} (h : s.data.head? ≠ some 'b') :
    ¬ refsBook b0 s := by
  rintro ⟨c, hc | ⟨frag, hfrag⟩⟩
  · rw [hc] at h
    exact h (chapFname_head b0 c)
  · rw [hfrag] at h
    apply h
    rw [hash_append_data, chapFname_data]
    rfl

theorem not_refsBook_chapFname {b0 bid c : Nat} (hne : bid ≠ b0) :
    ¬ refsBook b0 (chapFname bid c) := by
  rintro ⟨c', hc | ⟨frag, hfrag⟩⟩
  · exact hne (chapFname_inj hc).1
  · have hd := congrArg String.data hfrag
    rw [hash_append_data] at hd
    have hmem : '#' ∈ (chapFname bid c).data := by
      rw [hd]
      exact List.mem_append_right _ (List.mem_cons_self _ _)
    exact chapFname_no_hash bid c hmem

theorem not_refsBook_chapFname_frag {b0 bid c : Nat} {frag : String} (hne : bid ≠ b0) :
    ¬ refsBook b0 (chapFname bid c ++ "#" ++ frag) := by
  rintro ⟨c', hc | ⟨frag', hfrag⟩⟩
  · have hd := congrArg String.data hc
    rw [hash_append_data] at hd
    have hmem : '#' ∈ (chapFname b0 c').data := by
      rw [← hd]
      exact List.mem_append_right _ (List.mem_cons_self _ _)
    exact chapFname_no_hash b0 c' hmem
  · exact hne (href_frag_inj hfrag).1

/-! Tag-freedom: after the safety net no opening bracket is ever followed
by a closing one, so no tag pattern can match any more. -/

theorem gtFree_eq_true {s : List Char} : gtFree s = true ↔ '>' ∉ s := by
  unfold gtFree
  rw [List.all_eq_true]
  constructor
  · intro h hm
    have := h '>' hm
    simp at this
  · intro h c hc
    simp only [decide_eq_true_eq]
    intro hceq
    exact h (hceq ▸ hc)

theorem tagFree_of_gtFree : ∀ {s : List Char}, gtFree s = true → tagFree s = true := by
  intro s
  induction s with
  | nil => intro _; rfl
  | cons c cs ih =>
    intro h
    have hcs : gtFree cs = true := by
      rw [gtFree_eq_true] at h ⊢
      exact fun hm => h (List.mem_cons_of_mem _ hm)
    by_cases hc : c = '<'
    · simp [tagFree, hc, hcs]
    · simp [tagFree, hc, ih hcs]

theorem tagFree_lt {cs : List Char} (h : tagFree ('<' :: cs) = true) : gtFree cs = true := by
  simpa [tagFree] using h

theorem tagFree_cons {c : Char} {cs : List Char} (h : tagFree (c :: cs) = true) :
    tagFree cs = true := by
  by_cases hc : c = '<'
  · subst hc
    exact tagFree_of_gtFree (tagFree_lt h)
  · simpa [tagFree, hc] using h

theorem tagFree_dropWhile (p : Char → Bool) {s : List Char} (h : tagFree s = true) :
    tagFree (s.dropWhile p) = true := by
  induction s with
  | nil => simpa using h
  | cons c cs ih =>
    rw [List.dropWhile_cons]
    by_cases hp : p c = true
    · simp only [hp, if_true]
      exact ih (tagFree_cons h)
    · simpa [hp] using h

theorem tagFree_append_left : ∀ {t b : List Char}, tagFree (t ++ b) = true → tagFree t = true := by
  intro t
  induction t with
  | nil => intro b _; rfl
  | cons c cs ih =>
    intro b h
    rw [List.cons_append] at h
    by_cases hc : c = '<'
    · subst hc
      have hg := tagFree_lt h
      have hgc : gtFree cs = true := by
        rw [gtFree_eq_true] at hg ⊢
        exact fun hm => hg (List.mem_append_left _ hm)
      simp [tagFree, hgc]
    · have h2 := ih (b := b) (by simpa [tagFree, hc] using h)
      simp [tagFree, hc, h2]

/-! Patterns of the shape open-bracket, middle, close-bracket cannot match
tag-free text. -/

theorem matchPre_pc {a : Char} {ps : List (Char → Bool)} {c : Char} {cs : List Char}
    (h : matchPre (pc a :: ps) (c :: cs) = true) : c = a ∧ matchPre ps cs = true := by
  simp only [matchPre, Bool.and_eq_true] at h
  refine ⟨?_, h.2⟩
  have := h.1
  simpa [pc] using this

theorem matchPre_gt_mem : ∀ (ps : List (Char → Bool)) (cs : List Char),
    matchPre (ps ++ [pc '>']) cs = true → '>' ∈ cs := by
  intro ps
  induction ps with
  | nil =>
    intro cs h
    cases cs with
    | nil => simp [matchPre] at h
    | cons c cs' =>
      have : c = '>' ∧ matchPre [] cs' = true := matchPre_pc h
      rw [this.1]
      exact List.mem_cons_self _ _
  | cons p ps' ih =>
    intro cs h
    cases cs with
    | nil => simp [matchPre] at h
    | cons c cs' =>
      simp only [List.cons_append, matchPre, Bool.and_eq_true] at h
      exact List.mem_cons_of_mem _ (ih cs' h.2)

theorem no_open_match {mid : List (Char → Bool)} {c : Char} {cs : List Char}
    (h : tagFree (c :: cs) = true) :
    matchPre (pc '<' :: (mid ++ [pc '>'])) (c :: cs) = false := by
  by_contra hn
  rw [Bool.not_eq_false] at hn
  have h1 := matchPre_pc hn
  have hg := tagFree_lt (h1.1 ▸ h)
  have hmem := matchPre_gt_mem mid cs h1.2
  rw [gtFree_eq_true] at hg
  exact hg hmem

/-! Every substitution pass is the identity on tag-free text. -/

theorem removeLitF_id {mid : List (Char → Bool)} :
    ∀ (fuel : Nat) (s : List Char), tagFree s = true →
      removeLitF (pc '<' :: (mid ++ [pc '>'])) fuel s = s := by
  intro fuel
  induction fuel with
  | zero => intro s _; cases s <;> rfl
  | succ f ih =>
    intro s hs
    cases s with
    | nil => rfl
    | cons c cs =>
      have hno := @no_open_match mid _ _ hs
      simp only [removeLitF, hno, Bool.false_eq_true, if_false]
      rw [ih cs (tagFree_cons hs)]

theorem subPairF_id {mid ks : List (Char → Bool)} (keep : Bool) :
    ∀ (fuel : Nat) (s : List Char), tagFree s = true →
      subPairF keep (pc '<' :: (mid ++ [pc '>'])) ks fuel s = s := by
  intro fuel
  induction fuel with
  | zero => intro s _; cases s <;> rfl
  | succ f ih =>
    intro s hs
    cases s with
    | nil => rfl
    | cons c cs =>
      have hno := @no_open_match mid _ _ hs
      simp only [subPairF, hno, Bool.false_eq_true, if_false]
      rw [ih cs (tagFree_cons hs)]

theorem takeDigits_append : ∀ s : List Char, (takeDigits s).1 ++ (takeDigits s).2 = s := by
  intro s
  induction s with
  | nil => rfl
  | cons c cs ih =>
    by_cases h : c.isDigit = true
    · simp [takeDigits, h, ih]
    · simp [takeDigits, h]

theorem numTagRest_some {a b : Char} {single : Bool} {s t : List Char}
    (h : numTagRest a b single s = some t) :
    ∃ cs, s = '<' :: cs ∧ '>' ∈ cs := by
  match s with
  | [] => simp [numTagRest] at h
  | [c] => simp [numTagRest] at h
  | [c, x] => simp [numTagRest] at h
  | c :: x :: y :: rest2 =>
    simp only [numTagRest] at h
    by_cases hc : c = '<' ∧ x = a ∧ y = b
    case neg => simp [hc] at h
    case pos =>
      rw [if_pos hc] at h
      refine ⟨x :: y :: rest2, by rw [hc.1], ?_⟩
      cases single with
      | false =>
        simp only [Bool.false_eq_true, if_false] at h
        rcases htake : takeDigits rest2 with ⟨ds, rest3⟩
        rw [htake] at h
        cases ds with
        | nil => simp at h
        | cons d ds' =>
          cases rest3 with
          | nil => simp at h
          | cons g tail =>
            by_cases hg : g = '>'
            · have hsplit := takeDigits_append rest2
              rw [htake] at hsplit
              have hm : '>' ∈ rest2 := by
                rw [← hsplit, ← hg]
                exact List.mem_append_right _ (List.mem_cons_self _ _)
              exact List.mem_cons_of_mem _ (List.mem_cons_of_mem _ hm)
            · simp [hg] at h
      | true =>
        simp only [if_true] at h
        cases rest2 with
        | nil => simp at h
        | cons d rest2' =>
          cases rest2' with
          | nil => simp at h
          | cons e tail =>
            by_cases hde : d.isDigit = true ∧ e = '>'
            · have hm : '>' ∈ d :: e :: tail := by
                rw [← hde.2]
                exact List.mem_cons_of_mem _ (List.mem_cons_self _ _)
              exact List.mem_cons_of_mem _ (List.mem_cons_of_mem _ hm)
            · simp [hde] at h

theorem numTagRest_none {a b : Char} {single : Bool} {s : List Char}
    (h : tagFree s = true) : numTagRest a b single s = none := by
  cases hn : numTagRest a b single s with
  | none => rfl
  | some t =>
    obtain ⟨cs, hcs, hmem⟩ := numTagRest_some hn
    subst hcs
    have hg := tagFree_lt h
    rw [gtFree_eq_true] at hg
    exact absurd hmem hg

theorem subNumTagF_id (a b : Char) (single : Bool) :
    ∀ (fuel : Nat) (s : List Char), tagFree s = true → subNumTagF a b single fuel s = s := by
  intro fuel
  induction fuel with
  | zero => intro s _; cases s <;> rfl
  | succ f ih =>
    intro s hs
    cases s with
    | nil => rfl
    | cons c cs =>
      have hno : numTagRest a b single (c :: cs) = none := numTagRest_none hs
      simp only [subNumTagF, hno]
      rw [ih cs (tagFree_cons hs)]

/-! The safety net: its output is tag-free, it only drops characters, and
it is the identity on tag-free text. -/

theorem afterGt_none_iff {s : List Char} : afterGt s = none ↔ '>' ∉ s := by
  induction s with
  | nil => simp [afterGt]
  | cons c cs ih =>
    by_cases hc : c = '>'
    · subst hc
      simp [afterGt]
    · rw [afterGt, if_neg hc, ih]
      constructor
      · intro h hm
        rcases List.mem_cons.mp hm with h1 | h1
        · exact hc h1.symm
        · exact h h1
      · intro h hm
        exact h (List.mem_cons_of_mem _ hm)

theorem afterGt_some_sub {s r : List Char} (h : afterGt s = some r) : ∀ a ∈ r, a ∈ s := by
  induction s generalizing r with
  | nil => simp [afterGt] at h
  | cons c cs ih =>
    by_cases hc : c = '>'
    · rw [afterGt, if_pos hc] at h
      cases h
      exact fun a ha => List.mem_cons_of_mem _ ha
    · rw [afterGt, if_neg hc] at h
      exact fun a ha => List.mem_cons_of_mem _ (ih h a ha)

theorem afterGt_some_length {s r : List Char} (h : afterGt s = some r) : r.length < s.length := by
  induction s generalizing r with
  | nil => simp [afterGt] at h
  | cons c cs ih =>
    by_cases hc : c = '>'
    · rw [afterGt, if_pos hc] at h
      cases h
      simp
    · rw [afterGt, if_neg hc] at h
      have := ih h
      simp only [List.length_cons]
      omega

theorem stripAngleF_sub : ∀ (fuel : Nat) (s : List Char), ∀ a ∈ stripAngleF fuel s, a ∈ s := by
  intro fuel
  induction fuel with
  | zero =>
    intro s a ha
    cases s with
    | nil => simpa [stripAngleF] using ha
    | cons c cs => simpa [stripAngleF] using ha
  | succ f ih =>
    intro s a ha
    cases s with
    | nil => simpa [stripAngleF] using ha
    | cons c cs =>
      by_cases hc : c = '<'
      · cases hg : afterGt cs with
        | some rest =>
          rw [stripAngleF, if_pos hc, hg] at ha
          exact List.mem_cons_of_mem _ (afterGt_some_sub hg a (ih rest a ha))
        | none =>
          rw [stripAngleF, if_pos hc, hg] at ha
          rcases List.mem_cons.mp ha with h1 | h1
          · rw [h1, hc]
            exact List.mem_cons_self _ _
          · exact List.mem_cons_of_mem _ (ih cs a h1)
      · rw [stripAngleF, if_neg hc] at ha
        rcases List.mem_cons.mp ha with h1 | h1
        · rw [h1]
          exact List.mem_cons_self _ _
        · exact List.mem_cons_of_mem _ (ih cs a h1)

theorem tagFree_stripAngleF : ∀ (fuel : Nat) (s : List Char), s.length ≤ fuel →
    tagFree (stripAngleF fuel s) = true := by
  intro fuel
  induction fuel with
  | zero =>
    intro s hl
    have : s = [] := List.length_eq_zero.mp (Nat.le_zero.mp hl)
    subst this
    rfl
  | succ f ih =>
    intro s hl
    cases s with
    | nil => rfl
    | cons c cs =>
      simp only [List.length_cons] at hl
      by_cases hc : c = '<'
      · cases hg : afterGt cs with
        | some rest =>
          rw [stripAngleF, if_pos hc, hg]
          have := afterGt_some_length hg
          exact ih rest (by omega)
        | none =>
          rw [stripAngleF, if_pos hc, hg]
          have hng : '>' ∉ cs := afterGt_none_iff.mp hg
          have hout : gtFree (stripAngleF f cs) = true := by
            rw [gtFree_eq_true]
            intro hm
            exact hng (stripAngleF_sub f cs '>' hm)
          simp [tagFree, hc, hout]
      · rw [stripAngleF, if_neg hc]
        have := ih cs (by omega)
        simp [tagFree, hc, this]

theorem stripAngleF_id : ∀ (fuel : Nat) (s : List Char), tagFree s = true →
    stripAngleF fuel s = s := by
  intro fuel
  induction fuel with
  | zero => intro s _; cases s <;> rfl
  | succ f ih =>
    intro s hs
    cases s with
    | nil => rfl
    | cons c cs =>
      by_cases hc : c = '<'
      · have hg : gtFree cs = true := tagFree_lt (hc ▸ hs)
        have hng : afterGt cs = none := afterGt_none_iff.mpr (gtFree_eq_true.mp hg)
        rw [stripAngleF, if_pos hc, hng, ih cs (tagFree_cons hs)]
      · rw [stripAngleF, if_neg hc, ih cs (tagFree_cons hs)]

/-! Whitespace normalisation: after collapse and strip, whitespace is a
single plain space between words, with none at the ends; a second pass
changes nothing. -/

theorem wsOnlySpace_eq {s : List Char} :
    wsOnlySpace s = true ↔ ∀ a ∈ s, isPySpace a = true → a = ' ' := by
  unfold wsOnlySpace
  rw [List.all_eq_true]
  constructor
  · intro h a ha hws
    have := h a ha
    simp only [Bool.or_eq_true, Bool.not_eq_true', beq_iff_eq] at this
    rcases this with h1 | h1
    · exact absurd hws (by simp [h1])
    · exact h1
  · intro h a ha
    simp only [Bool.or_eq_true, Bool.not_eq_true', beq_iff_eq]
    by_cases hws : isPySpace a = true
    · exact Or.inr (h a ha hws)
    · exact Or.inl (by simpa using hws)

theorem head?_dropWhile_false (p : Char → Bool) :
    ∀ (l : List Char), ∀ a ∈ (l.dropWhile p).head?, p a = false := by
  intro l
  induction l with
  | nil => intro a ha; simp at ha
  | cons c cs ih =>
    rw [List.dropWhile_cons]
    by_cases hp : p c = true
    · simp only [hp, if_true]
      exact ih
    · intro a ha
      simp only [hp, Bool.false_eq_true, if_false, List.head?_cons] at ha
      simp only [Option.mem_def, Option.some.injEq] at ha
      rw [← ha]
      simpa using hp

theorem dropWhile_eq_self_of (p : Char → Bool) (l : List Char)
    (h : ∀ a ∈ l.head?, p a = false) : l.dropWhile p = l := by
  cases l with
  | nil => rfl
  | cons c cs =>
    have := h c (by simp)
    simp [List.dropWhile_cons, this]

theorem dropWhile_idem (p : Char → Bool) (l : List Char) :
    (l.dropWhile p).dropWhile p = l.dropWhile p :=
  dropWhile_eq_self_of p _ (head?_dropWhile_false p l)

theorem chain'_dropWhile {R : Char → Char → Prop} (p : Char → Bool) :
    ∀ {l : List Char}, List.Chain' R l → List.Chain' R (l.dropWhile p) := by
  intro l h
  induction l with
  | nil => simpa using h
  | cons c cs ih =>
    rw [List.dropWhile_cons]
    by_cases hp : p c = true
    · simp only [hp, if_true]
      exact ih h.tail
    · simpa [hp] using h

theorem noDoubleWs_reverse {l : List Char} (h : noDoubleWs l) : noDoubleWs l.reverse := by
  unfold noDoubleWs at h ⊢
  rw [List.chain'_reverse]
  exact List.Chain'.imp (fun a b hab hc => hab ⟨hc.2, hc.1⟩) h

theorem collapseWsF_sub : ∀ (fuel : Nat) (s : List Char), ∀ a ∈ collapseWsF fuel s,
    a ∈ s ∨ a = ' ' := by
  intro fuel
  induction fuel with
  | zero =>
    intro s a ha
    cases s with
    | nil => simp [collapseWsF] at ha
    | cons c cs => exact Or.inl (by simpa [collapseWsF] using ha)
  | succ f ih =>
    intro s a ha
    cases s with
    | nil => simp [collapseWsF] at ha
    | cons c cs =>
      by_cases hc : isPySpace c = true
      · rw [collapseWsF, if_pos hc] at ha
        rcases List.mem_cons.mp ha with h1 | h1
        · exact Or.inr h1
        · rcases ih _ a h1 with h2 | h2
          · exact Or.inl (List.mem_cons_of_mem _ ((List.dropWhile_sublist _).mem h2))
          · exact Or.inr h2
      · rw [collapseWsF, if_neg hc] at ha
        rcases List.mem_cons.mp ha with h1 | h1
        · exact Or.inl (h1 ▸ List.mem_cons_self _ _)
        · rcases ih _ a h1 with h2 | h2
          · exact Or.inl (List.mem_cons_of_mem _ h2)
          · exact Or.inr h2

theorem tagFree_collapseWsF : ∀ (fuel : Nat) (s : List Char), tagFree s = true →
    tagFree (collapseWsF fuel s) = true := by
  intro fuel
  induction fuel with
  | zero =>
    intro s hs
    cases s with
    | nil => rfl
    | cons c cs => simpa [collapseWsF] using hs
  | succ f ih =>
    intro s hs
    cases s with
    | nil => rfl
    | cons c cs =>
      by_cases hc : isPySpace c = true
      · rw [collapseWsF, if_pos hc]
        have hcs := tagFree_dropWhile isPySpace (tagFree_cons hs)
        have := ih _ hcs
        have hsp : (' ' : Char) ≠ '<' := by decide
        simp [tagFree, hsp, this]
      · rw [collapseWsF, if_neg hc]
        by_cases hlt : c = '<'
        · subst hlt
          have hg := tagFree_lt hs
          have hout : gtFree (collapseWsF f cs) = true := by
            rw [gtFree_eq_true] at hg ⊢
            intro hm
            rcases collapseWsF_sub f cs '>' hm with h1 | h1
            · exact hg h1
            · exact absurd h1 (by decide)
          simp [tagFree, hout]
        · have := ih _ (tagFree_cons hs)
          simp [tagFree, hlt, this]

theorem collapseWsF_ws_mem : ∀ (fuel : Nat) (s : List Char), s.length ≤ fuel →
    ∀ a ∈ collapseWsF fuel s, isPySpace a = true → a = ' ' := by
  intro fuel
  induction fuel with
  | zero =>
    intro s hl a ha
    have : s = [] := List.length_eq_zero.mp (Nat.le_zero.mp hl)
    subst this
    simp [collapseWsF] at ha
  | succ f ih =>
    intro s hl a ha hws
    cases s with
    | nil => simp [collapseWsF] at ha
    | cons c cs =>
      simp only [List.length_cons] at hl
      by_cases hc : isPySpace c = true
      · rw [collapseWsF, if_pos hc] at ha
        rcases List.mem_cons.mp ha with h1 | h1
        · exact h1
        · have hlen : (cs.dropWhile isPySpace).length ≤ f := by
            have := (List.dropWhile_sublist (l := cs) isPySpace).length_le
            omega
          exact ih _ hlen a h1 hws
      · rw [collapseWsF, if_neg hc] at ha
        rcases List.mem_cons.mp ha with h1 | h1
        · exact absurd (h1 ▸ hws) hc
        · exact ih _ (by omega) a h1 hws

theorem collapseWsF_head : ∀ (fuel : Nat) (r : List Char),
    (∀ d ∈ r.head?, isPySpace d = false) → (collapseWsF fuel r).head? = r.head? := by
  intro fuel r h
  cases fuel with
  | zero => cases r <;> rfl
  | succ f =>
    cases r with
    | nil => rfl
    | cons d ds =>
      have hd := h d (by simp)
      rw [collapseWsF, if_neg (by simp [hd])]
      rfl

theorem noDoubleWs_collapseWsF : ∀ (fuel : Nat) (s : List Char), s.length ≤ fuel →
    noDoubleWs (collapseWsF fuel s) := by
  intro fuel
  induction fuel with
  | zero =>
    intro s hl
    have : s = [] := List.length_eq_zero.mp (Nat.le_zero.mp hl)
    subst this
    exact List.chain'_nil
  | succ f ih =>
    intro s hl
    cases s with
    | nil => exact List.chain'_nil
    | cons c cs =>
      simp only [List.length_cons] at hl
      by_cases hc : isPySpace c = true
      · rw [collapseWsF, if_pos hc]
        have hlen : (cs.dropWhile isPySpace).length ≤ f := by
          have := (List.dropWhile_sublist (l := cs) isPySpace).length_le
          omega
        rw [noDoubleWs, List.chain'_cons']
        refine ⟨?_, ih _ hlen⟩
        intro y hy
        rw [collapseWsF_head f _ (head?_dropWhile_false isPySpace cs)] at hy
        have := head?_dropWhile_false isPySpace cs y hy
        intro hcon
        rw [this] at hcon
        exact absurd hcon.2 (by simp)
      · rw [collapseWsF, if_neg hc]
        rw [noDoubleWs, List.chain'_cons']
        refine ⟨?_, ih _ (by omega)⟩
        intro y _ hcon
        exact hc hcon.1

theorem collapseWsF_id : ∀ (fuel : Nat) (s : List Char), wsOnlySpace s = true →
    noDoubleWs s → collapseWsF fuel s = s := by
  intro fuel
  induction fuel with
  | zero => intro s _ _; cases s <;> rfl
  | succ f ih =>
    intro s hws hnd
    cases s with
    | nil => rfl
    | cons c cs =>
      have hws' : wsOnlySpace cs = true := by
        rw [wsOnlySpace_eq] at hws ⊢
        exact fun a ha => hws a (List.mem_cons_of_mem _ ha)
      have hnd' : noDoubleWs cs := (List.chain'_cons'.mp hnd).2
      by_cases hc : isPySpace c = true
      · have hceq : c = ' ' := (wsOnlySpace_eq.mp hws) c (List.mem_cons_self _ _) hc
        have hhead : ∀ a ∈ cs.head?, isPySpace a = false := by
          intro a ha
          have := (List.chain'_cons'.mp hnd).1 a ha
          by_contra hcon
          rw [Bool.not_eq_false] at hcon
          exact this ⟨hc, hcon⟩
        rw [collapseWsF, if_pos hc, dropWhile_eq_self_of _ _ hhead, ih _ hws' hnd', hceq]
      · rw [collapseWsF, if_neg hc, ih _ hws' hnd']

/-! stripWsEnds: decomposition, idempotence, preservation. -/

theorem stripWsEnds_decomp (s : List Char) :
    s.dropWhile isPySpace =
      stripWsEnds s ++ ((s.dropWhile isPySpace).reverse.takeWhile isPySpace).reverse := by
  unfold stripWsEnds
  have h := List.takeWhile_append_dropWhile isPySpace (s.dropWhile isPySpace).reverse
  calc s.dropWhile isPySpace
      = (s.dropWhile isPySpace).reverse.reverse := (List.reverse_reverse _).symm
    _ = ((s.dropWhile isPySpace).reverse.takeWhile isPySpace ++
          (s.dropWhile isPySpace).reverse.dropWhile isPySpace).reverse := by rw [h]
    _ = _ := by rw [List.reverse_append]

theorem stripWsEnds_head (s : List Char) :
    ∀ a ∈ (stripWsEnds s).head?, isPySpace a = false := by
  intro a ha
  have hd := stripWsEnds_decomp s
  cases ht : stripWsEnds s with
  | nil =>
    rw [ht] at ha
    simp at ha
  | cons c cs =>
    rw [ht] at ha hd
    have hac : c = a := by simpa using ha
    have hh : (s.dropWhile isPySpace).head? = some a := by
      rw [hd, hac]
      rfl
    exact head?_dropWhile_false isPySpace s a (Option.mem_def.mpr hh)

theorem stripWsEnds_reverse (s : List Char) :
    (stripWsEnds s).reverse = (s.dropWhile isPySpace).reverse.dropWhile isPySpace := by
  unfold stripWsEnds
  rw [List.reverse_reverse]

theorem stripWsEnds_reverse_head (s : List Char) :
    ∀ a ∈ (stripWsEnds s).reverse.head?, isPySpace a = false := by
  rw [stripWsEnds_reverse]
  exact head?_dropWhile_false isPySpace _

theorem stripWsEnds_idem (s : List Char) : stripWsEnds (stripWsEnds s) = stripWsEnds s := by
  conv_lhs => rw [stripWsEnds]
  rw [dropWhile_eq_self_of _ _ (stripWsEnds_head s)]
  rw [dropWhile_eq_self_of _ _ (stripWsEnds_reverse_head s)]
  exact List.reverse_reverse _

theorem mem_stripWsEnds (s : List Char) : ∀ a ∈ stripWsEnds s, a ∈ s := by
  intro a ha
  unfold stripWsEnds at ha
  rw [List.mem_reverse] at ha
  have h1 := (List.dropWhile_sublist isPySpace).mem ha
  rw [List.mem_reverse] at h1
  exact (List.dropWhile_sublist isPySpace).mem h1

theorem tagFree_stripWsEnds {s : List Char} (h : tagFree s = true) :
    tagFree (stripWsEnds s) = true := by
  have hu : tagFree (s.dropWhile isPySpace) = true := tagFree_dropWhile _ h
  rw [stripWsEnds_decomp s] at hu
  exact tagFree_append_left hu

theorem wsOnlySpace_stripWsEnds {s : List Char} (h : wsOnlySpace s = true) :
    wsOnlySpace (stripWsEnds s) = true := by
  rw [wsOnlySpace_eq] at h ⊢
  exact fun a ha => h a (mem_stripWsEnds s a ha)

theorem noDoubleWs_stripWsEnds {s : List Char} (h : noDoubleWs s) :
    noDoubleWs (stripWsEnds s) := by
  unfold stripWsEnds
  exact noDoubleWs_reverse (chain'_dropWhile _ (noDoubleWs_reverse (chain'_dropWhile _ h)))

/-! The tag passes and the full pipeline. -/

theorem tagFree_stripTagPasses (t : List Char) : tagFree (stripTagPasses t) = true := by
  unfold stripTagPasses stripAngleS
  exact tagFree_stripAngleF _ _ (Nat.le_refl _)

theorem removeLitS_id {mid : List (Char → Bool)} {r : List Char} (h : tagFree r = true) :
    removeLitS (pc '<' :: (mid ++ [pc '>'])) r = r := by
  unfold removeLitS
  exact removeLitF_id _ _ h

theorem subPairS_id {mid ks : List (Char → Bool)} (keep : Bool) {r : List Char}
    (h : tagFree r = true) : subPairS keep (pc '<' :: (mid ++ [pc '>'])) ks r = r := by
  unfold subPairS
  exact subPairF_id _ _ _ h

theorem subNumTagS_id (a b : Char) (single : Bool) {r : List Char} (h : tagFree r = true) :
    subNumTagS a b single r = r := by
  unfold subNumTagS
  exact subNumTagF_id _ _ _ _ _ h

theorem stripAngleS_id {r : List Char} (h : tagFree r = true) : stripAngleS r = r := by
  unfold stripAngleS
  exact stripAngleF_id _ _ h

theorem stripTagPasses_id {r : List Char} (h : tagFree r = true) : stripTagPasses r = r := by
  have e1 : removeLitS patCM r = r := @removeLitS_id [pc 'C', pc 'M'] r h
  have e2 : subPairS true patFI patFI r = r := @subPairS_id [ic2 'F' 'f', ic2 'I' 'i'] _ true r h
  have e3 : subPairS true patFR patFR r = r := @subPairS_id [ic2 'F' 'f', ic2 'R' 'r'] _ true r h
  have e4 : subPairS true patFU patFU r = r := @subPairS_id [ic2 'F' 'f', ic2 'U' 'u'] _ true r h
  have e5 : subPairS false patRF patRF r = r := @subPairS_id [ic2 'R' 'r', ic2 'F' 'f'] _ false r h
  have e6 : subPairS true patTS patTSc r = r := @subPairS_id [pc 'T', pc 'S'] _ true r h
  have e7 : subPairS true patQ patQc r = r := @subPairS_id [pc 'Q'] _ true r h
  have e8 : subPairS true patE patEc r = r := @subPairS_id [pc 'E'] _ true r h
  have e9 : subPairS true patX patXc r = r := @subPairS_id [pc 'X'] _ true r h
  simp only [stripTagPasses]
  rw [e1, e2, e3, e4, e5, e6, e7, e8, e9,
    subNumTagS_id 'W' 'G' false h, subNumTagS_id 'W' 'H' false h, subNumTagS_id 'W' 'T' false h,
    subNumTagS_id 'R' 'X' false h, subNumTagS_id 'P' 'F' true h, subNumTagS_id 'P' 'I' true h]
  exact stripAngleS_id h

theorem collapseWsS_tagFree {s : List Char} (h : tagFree s = true) :
    tagFree (collapseWsS s) = true := by
  unfold collapseWsS
  exact tagFree_collapseWsF _ _ h

theorem collapseWsS_wsOnly (s : List Char) : wsOnlySpace (collapseWsS s) = true := by
  unfold collapseWsS
  rw [wsOnlySpace_eq]
  exact collapseWsF_ws_mem _ _ (Nat.le_refl _)

theorem collapseWsS_noDouble (s : List Char) : noDoubleWs (collapseWsS s) := by
  unfold collapseWsS
  exact noDoubleWs_collapseWsF _ _ (Nat.le_refl _)

theorem collapseWsS_id {s : List Char} (h1 : wsOnlySpace s = true) (h2 : noDoubleWs s) :
    collapseWsS s = s := by
  unfold collapseWsS
  exact collapseWsF_id _ _ h1 h2

theorem strip_core_clean (s : List Char) :
    tagFree (stripWsEnds (collapseWsS (stripTagPasses s))) = true ∧
    wsOnlySpace (stripWsEnds (collapseWsS (stripTagPasses s))) = true ∧
    noDoubleWs (stripWsEnds (collapseWsS (stripTagPasses s))) := by
  have h1 := tagFree_stripTagPasses s
  generalize stripTagPasses s = X at h1 ⊢
  have h2 := collapseWsS_tagFree h1
  have h3 := collapseWsS_wsOnly X
  have h4 := collapseWsS_noDouble X
  exact ⟨tagFree_stripWsEnds h2, wsOnlySpace_stripWsEnds h3, noDoubleWs_stripWsEnds h4⟩

theorem strip_pipeline_fix (s : List Char) :
    stripWsEnds (collapseWsS (stripTagPasses
      (stripWsEnds (collapseWsS (stripTagPasses s))))) =
    stripWsEnds (collapseWsS (stripTagPasses s)) := by
  obtain ⟨h1, h2, h3⟩ := strip_core_clean s
  generalize collapseWsS (stripTagPasses s) = Z at h1 h2 h3 ⊢
  rw [stripTagPasses_id h1, collapseWsS_id h2 h3]
  exact stripWsEnds_idem Z

theorem strip_mysword_tags_idem (s : String) :
    strip_mysword_tags (strip_mysword_tags s) = strip_mysword_tags s := by
  by_cases hs : s = ""
  · rw [hs]
    rfl
  · have hinner : strip_mysword_tags s = ⟨stripWsEnds (collapseWsS (stripTagPasses s.data))⟩ := by
      rw [strip_mysword_tags, if_neg hs]
    have hfix := strip_pipeline_fix s.data
    generalize stripWsEnds (collapseWsS (stripTagPasses s.data)) = R at hinner hfix
    rw [hinner]
    by_cases hr : (⟨R⟩ : String) = ""
    · rw [strip_mysword_tags, if_pos hr]
    · rw [strip_mysword_tags, if_neg hr]
      exact congrArg String.mk hfix

/-! Play order accounting: the navigation nodes of the traversal carry the
consecutive values of the threaded counter. -/

theorem range'_glue (po k n : Nat) :
    po :: (List.range' (po + 1) k ++ List.range' (po + 1 + k) n) = List.range' po (1 + k + n) := by
  have h := List.range'_append (po + 1) k n 1
  simp only [Nat.one_mul] at h
  rw [h, show 1 + k + n = (n + k) + 1 from by omega, List.range'_succ po (n + k) 1]

theorem processVerses_nav_po (bn : String) (bid chap : Nat) (fname : String) (xf xt : XrefMap) :
    ∀ (vs : List (Nat × Option String)) (po : Nat),
      (processVerses bn bid chap fname xf xt po vs).nav.map NavPoint.playOrder =
        List.range' po vs.length ∧
      (processVerses bn bid chap fname xf xt po vs).po = po + vs.length := by
  intro vs
  induction vs with
  | nil => intro po; exact ⟨rfl, rfl⟩
  | cons v rest ih =>
    intro po
    obtain ⟨ih1, ih2⟩ := ih (po + 1)
    constructor
    · show NavPoint.playOrder (verseNav bn bid chap fname po v.1) ::
        (processVerses bn bid chap fname xf xt (po + 1) rest).nav.map NavPoint.playOrder =
        List.range' po (rest.length + 1)
      rw [ih1, List.range'_succ po rest.length 1]
      rfl
    · show (processVerses bn bid chap fname xf xt (po + 1) rest).po = po + (rest.length + 1)
      rw [ih2]
      omega

theorem processChapters_nav_po (bn : String) (bid first : Nat) (tl : String)
    (chapters : List Nat) (vb : VerseBook) (xf xt : XrefMap) :
    ∀ (l : List Nat) (po : Nat),
      ∃ n, (processChapters bn bid first tl chapters vb xf xt po l).nav.map NavPoint.playOrder =
        List.range' po n ∧
      (processChapters bn bid first tl chapters vb xf xt po l).po = po + n := by
  intro l
  induction l with
  | nil => intro po; exact ⟨0, rfl, rfl⟩
  | cons chap rest ih =>
    intro po
    obtain ⟨vh1, vh2⟩ := processVerses_nav_po bn bid chap (chapFname bid chap) xf xt
      (cLookup vb chap) (po + 1)
    obtain ⟨n, ih1, ih2⟩ :=
      ih (processVerses bn bid chap (chapFname bid chap) xf xt (po + 1) (cLookup vb chap)).po
    refine ⟨1 + (cLookup vb chap).length + n, ?_, ?_⟩
    · show NavPoint.playOrder ⟨itemId bid chap, po, bn ++ " " ++ natStr chap, chapFname bid chap⟩ ::
        ((processVerses bn bid chap (chapFname bid chap) xf xt (po + 1) (cLookup vb chap)).nav ++
         (processChapters bn bid first tl chapters vb xf xt
           (processVerses bn bid chap (chapFname bid chap) xf xt (po + 1) (cLookup vb chap)).po
           rest).nav).map NavPoint.playOrder =
        List.range' po (1 + (cLookup vb chap).length + n)
      rw [List.map_append, vh1, ih1, vh2]
      exact range'_glue po (cLookup vb chap).length n
    · show (processChapters bn bid first tl chapters vb xf xt
          (processVerses bn bid chap (chapFname bid chap) xf xt (po + 1) (cLookup vb chap)).po
          rest).po = po + (1 + (cLookup vb chap).length + n)
      rw [ih2, vh2]
      omega

theorem processBooks_nav_po (books : Books) (verses : Verses) (xf xt : XrefMap) :
    ∀ (bids : List Nat) (po : Nat) (r : CAcc),
      processBooks books verses xf xt po bids = some r →
      ∃ n, r.nav.map NavPoint.playOrder = List.range' po n ∧ r.po = po + n := by
  intro bids
  induction bids with
  | nil =>
    intro po r h
    have hr : r = ⟨[], [], [], [], po⟩ := by
      simpa [processBooks] using h.symm
    subst hr
    exact ⟨0, rfl, rfl⟩
  | cons bid rest ih =>
    intro po r h
    rw [processBooks] at h
    cases hpg : pyGetB books bid with
    | none =>
      simp only [hpg] at h
      exact ih po r h
    | some name =>
      simp only [hpg] at h
      by_cases hname : name = ""
      · rw [if_pos hname] at h
        exact ih po r h
      · rw [if_neg hname] at h
        cases hch : sortedKeysN (vLookup verses bid) with
        | nil =>
          simp only [hch] at h
          exact Option.noConfusion h
        | cons first restch =>
          simp only [hch] at h
          cases hrec : processBooks books verses xf xt
              (processChapters (book_title_formatter name) bid first
                (tocLinkStr bid (first :: restch)) (first :: restch) (vLookup verses bid) xf xt
                (po + 1) (first :: restch)).po rest with
          | none =>
            simp only [hrec] at h
            exact Option.noConfusion h
          | some rr =>
            simp only [hrec] at h
            obtain ⟨k, hc1, hc2⟩ := processChapters_nav_po (book_title_formatter name) bid first
              (tocLinkStr bid (first :: restch)) (first :: restch) (vLookup verses bid) xf xt
              (first :: restch) (po + 1)
            obtain ⟨n, hr1, hr2⟩ := ih _ rr hrec
            have hr : r = ⟨(processChapters (book_title_formatter name) bid first
                (tocLinkStr bid (first :: restch)) (first :: restch) (vLookup verses bid) xf xt
                (po + 1) (first :: restch)).files ++ rr.files,
              (processChapters (book_title_formatter name) bid first
                (tocLinkStr bid (first :: restch)) (first :: restch) (vLookup verses bid) xf xt
                (po + 1) (first :: restch)).manifest ++ rr.manifest,
              (processChapters (book_title_formatter name) bid first
                (tocLinkStr bid (first :: restch)) (first :: restch) (vLookup verses bid) xf xt
                (po + 1) (first :: restch)).spine ++ rr.spine,
              ⟨natStr bid, po, book_title_formatter name, chapFname bid first⟩ ::
                ((processChapters (book_title_formatter name) bid first
                  (tocLinkStr bid (first :: restch)) (first :: restch) (vLookup verses bid) xf xt
                  (po + 1) (first :: restch)).nav ++ rr.nav),
              rr.po⟩ := by
              simpa using h.symm
            subst hr
            refine ⟨1 + k + n, ?_, ?_⟩
            · show NavPoint.playOrder ⟨natStr bid, po, book_title_formatter name,
                  chapFname bid first⟩ ::
                ((processChapters (book_title_formatter name) bid first
                  (tocLinkStr bid (first :: restch)) (first :: restch) (vLookup verses bid) xf xt
                  (po + 1) (first :: restch)).nav ++ rr.nav).map NavPoint.playOrder =
                List.range' po (1 + k + n)
              rw [List.map_append, hc1, hr1, hc2]
              exact range'_glue po k n
            · show rr.po = po + (1 + k + n)
              rw [hr2, hc2]
              omega

/-! Closed forms of the manifest, spine and chapter file names: one entry
per chapter, in traversal order. -/

theorem processChapters_struct (bn : String) (bid first : Nat) (tl : String)
    (chapters : List Nat) (vb : VerseBook) (xf xt : XrefMap) :
    ∀ (l : List Nat) (po : Nat),
      (processChapters bn bid first tl chapters vb xf xt po l).manifest =
        l.map (fun c => (itemId bid c, chapFname bid c)) ∧
      (processChapters bn bid first tl chapters vb xf xt po l).spine =
        l.map (fun c => itemId bid c) ∧
      (processChapters bn bid first tl chapters vb xf xt po l).files.map PageFile.fname =
        l.map (fun c => "OEBPS/" ++ chapFname bid c) := by
  intro l
  induction l with
  | nil => intro po; exact ⟨rfl, rfl, rfl⟩
  | cons chap rest ih =>
    intro po
    obtain ⟨ih1, ih2, ih3⟩ :=
      ih (processVerses bn bid chap (chapFname bid chap) xf xt (po + 1) (cLookup vb chap)).po
    simp only [processChapters, List.map_cons]
    exact ⟨by rw [ih1], by rw [ih2], by rw [ih3]⟩

theorem processBooks_struct (books : Books) (verses : Verses) (xf xt : XrefMap) :
    ∀ (bids : List Nat) (po : Nat) (r : CAcc),
      processBooks books verses xf xt po bids = some r →
      r.manifest = (bids.filter (fun bid => truthyName (pyGetB books bid))).flatMap
        (fun bid => (sortedKeysN (vLookup verses bid)).map
          (fun c => (itemId bid c, chapFname bid c))) ∧
      r.spine = (bids.filter (fun bid => truthyName (pyGetB books bid))).flatMap
        (fun bid => (sortedKeysN (vLookup verses bid)).map (fun c => itemId bid c)) ∧
      r.files.map PageFile.fname =
        (bids.filter (fun bid => truthyName (pyGetB books bid))).flatMap
          (fun bid => (sortedKeysN (vLookup verses bid)).map
            (fun c => "OEBPS/" ++ chapFname bid c)) := by
  intro bids
  induction bids with
  | nil =>
    intro po r h
    have hr : r = ⟨[], [], [], [], po⟩ := by
      simpa [processBooks] using h.symm
    subst hr
    exact ⟨rfl, rfl, rfl⟩
  | cons bid rest ih =>
    intro po r h
    rw [processBooks] at h
    cases hpg : pyGetB books bid with
    | none =>
      simp only [hpg] at h
      have htr : truthyName (pyGetB books bid) = false := by
        rw [hpg]
        rfl
      obtain ⟨ih1, ih2, ih3⟩ := ih po r h
      rw [List.filter_cons_of_neg (by simp [htr])]
      exact ⟨ih1, ih2, ih3⟩
    | some name =>
      simp only [hpg] at h
      by_cases hname : name = ""
      · rw [if_pos hname] at h
        have htr : truthyName (pyGetB books bid) = false := by
          rw [hpg, hname]
          rfl
        obtain ⟨ih1, ih2, ih3⟩ := ih po r h
        rw [List.filter_cons_of_neg (by simp [htr])]
        exact ⟨ih1, ih2, ih3⟩
      · rw [if_neg hname] at h
        have htr : truthyName (pyGetB books bid) = true := by
          rw [hpg]
          simp [truthyName, hname]
        cases hch : sortedKeysN (vLookup verses bid) with
        | nil =>
          simp only [hch] at h
          exact Option.noConfusion h
        | cons first restch =>
          simp only [hch] at h
          cases hrec : processBooks books verses xf xt
              (processChapters (book_title_formatter name) bid first
                (tocLinkStr bid (first :: restch)) (first :: restch) (vLookup verses bid) xf xt
                (po + 1) (first :: restch)).po rest with
          | none =>
            simp only [hrec] at h
            exact Option.noConfusion h
          | some rr =>
            simp only [hrec] at h
            obtain ⟨hc1, hc2, hc3⟩ := processChapters_struct (book_title_formatter name) bid first
              (tocLinkStr bid (first :: restch)) (first :: restch) (vLookup verses bid) xf xt
              (first :: restch) (po + 1)
            obtain ⟨ih1, ih2, ih3⟩ := ih _ rr hrec
            have hr : r.manifest = (processChapters (book_title_formatter name) bid first
                (tocLinkStr bid (first :: restch)) (first :: restch) (vLookup verses bid) xf xt
                (po + 1) (first :: restch)).manifest ++ rr.manifest ∧
                r.spine = (processChapters (book_title_formatter name) bid first
                (tocLinkStr bid (first :: restch)) (first :: restch) (vLookup verses bid) xf xt
                (po + 1) (first :: restch)).spine ++ rr.spine ∧
                r.files = (processChapters (book_title_formatter name) bid first
                (tocLinkStr bid (first :: restch)) (first :: restch) (vLookup verses bid) xf xt
                (po + 1) (first :: restch)).files ++ rr.files := by
              rw [← Option.some.inj h]
              exact ⟨rfl, rfl, rfl⟩
            rw [List.filter_cons_of_pos (by simp [htr])]
            simp only [List.flatMap_cons]
            refine ⟨?_, ?_, ?_⟩
            · rw [hr.1, hc1, ih1, hch]
            · rw [hr.2.1, hc2, ih2, hch]
            · rw [hr.2.2, List.map_append, hc3, ih3, hch]

/-! Membership: every navigation node and every chapter-page hyperlink is
generated for some included book. -/

theorem processVerses_nav_mem (bn : String) (bid chap : Nat) (fname : String) (xf xt : XrefMap) :
    ∀ (vs : List (Nat × Option String)) (po : Nat) (np : NavPoint),
      np ∈ (processVerses bn bid chap fname xf xt po vs).nav →
      ∃ p v, np = verseNav bn bid chap fname p v := by
  intro vs
  induction vs with
  | nil =>
    intro po np h
    simp [processVerses] at h
  | cons v rest ih =>
    intro po np h
    simp only [processVerses] at h
    rcases List.mem_cons.mp h with h1 | h1
    · exact ⟨po, v.1, h1⟩
    · exact ih (po + 1) np h1

theorem processVerses_hrefs_mem (bn : String) (bid chap : Nat) (fname : String) (xf xt : XrefMap) :
    ∀ (vs : List (Nat × Option String)) (po : Nat) (h : String),
      h ∈ (processVerses bn bid chap fname xf xt po vs).hrefs →
      (∃ v, h = "#" ++ natStr v) ∨ (∃ v, h = xrefHref bid chap v) := by
  intro vs
  induction vs with
  | nil =>
    intro po h hh
    simp [processVerses] at hh
  | cons v rest ih =>
    intro po h hh
    simp only [processVerses] at hh
    rcases List.mem_append.mp hh with h1 | h1
    · simp only [verseHrefs] at h1
      rcases List.mem_cons.mp h1 with h2 | h2
      · exact Or.inl ⟨v.1, h2⟩
      · by_cases hind : generate_verse_indicators bid chap v.1 xf xt = ""
        · rw [if_pos hind] at h2
          simp at h2
        · rw [if_neg hind] at h2
          simp only [List.mem_singleton] at h2
          exact Or.inr ⟨v.1, h2⟩
    · exact ih (po + 1) h h1

theorem processChapters_nav_mem (bn : String) (bid first : Nat) (tl : String)
    (chapters : List Nat) (vb : VerseBook) (xf xt : XrefMap) :
    ∀ (l : List Nat) (po : Nat) (np : NavPoint),
      np ∈ (processChapters bn bid first tl chapters vb xf xt po l).nav →
      (∃ c p, np = ⟨itemId bid c, p, bn ++ " " ++ natStr c, chapFname bid c⟩) ∨
      (∃ c p v, np = verseNav bn bid c (chapFname bid c) p v) := by
  intro l
  induction l with
  | nil =>
    intro po np h
    simp [processChapters] at h
  | cons chap rest ih =>
    intro po np h
    simp only [processChapters] at h
    rcases List.mem_cons.mp h with h1 | h1
    · exact Or.inl ⟨chap, po, h1⟩
    · rcases List.mem_append.mp h1 with h2 | h2
      · obtain ⟨p, v, hv⟩ := processVerses_nav_mem bn bid chap (chapFname bid chap) xf xt _ _ np h2
        exact Or.inr ⟨chap, p, v, hv⟩
      · exact ih _ np h2

theorem processChapters_files_mem (bn : String) (bid first : Nat) (tl : String)
    (chapters : List Nat) (vb : VerseBook) (xf xt : XrefMap) :
    ∀ (l : List Nat) (po : Nat) (pf : PageFile),
      pf ∈ (processChapters bn bid first tl chapters vb xf xt po l).files →
      (∃ c, pf.fname = "OEBPS/" ++ chapFname bid c) ∧
      ∀ h ∈ pf.hrefs, chapterHrefShape bid h := by
  intro l
  induction l with
  | nil =>
    intro po pf h
    simp [processChapters] at h
  | cons chap rest ih =>
    intro po pf h
    simp only [processChapters] at h
    rcases List.mem_cons.mp h with h1 | h1
    · subst h1
      refine ⟨⟨chap, rfl⟩, ?_⟩
      intro h hh
      rcases List.mem_append.mp hh with h2 | h2
      · unfold chapterHeadingHrefs at h2
        by_cases hcf : chap = first
        · rw [if_pos hcf] at h2
          rcases List.mem_append.mp h2 with h3 | h3
          · obtain ⟨c, _, hc⟩ := List.mem_map.mp h3
            exact Or.inr (Or.inr (Or.inl ⟨c, hc.symm⟩))
          · rcases List.mem_cons.mp h3 with h4 | h4
            · exact Or.inl h4
            · simp only [List.mem_singleton] at h4
              exact Or.inr (Or.inl h4)
        · rw [if_neg hcf] at h2
          rcases List.mem_cons.mp h2 with h4 | h4
          · exact Or.inl h4
          · simp only [List.mem_singleton] at h4
            exact Or.inr (Or.inr (Or.inr (Or.inl ⟨first, h4⟩)))
      · rcases processVerses_hrefs_mem bn bid chap (chapFname bid chap) xf xt _ _ h h2 with
          ⟨v, hv⟩ | ⟨v, hv⟩
        · exact Or.inr (Or.inr (Or.inr (Or.inr (Or.inl ⟨v, hv⟩))))
        · exact Or.inr (Or.inr (Or.inr (Or.inr (Or.inr ⟨chap, v, hv⟩))))
    · exact ih _ pf h1

theorem processBooks_nav_mem (books : Books) (verses : Verses) (xf xt : XrefMap) :
    ∀ (bids : List Nat) (po : Nat) (r : CAcc),
      processBooks books verses xf xt po bids = some r →
      ∀ np ∈ r.nav, ∃ bid, bid ∈ bids ∧ truthyName (pyGetB books bid) = true ∧
        navOfBook bid np := by
  intro bids
  induction bids with
  | nil =>
    intro po r h np hnp
    have hr : r = ⟨[], [], [], [], po⟩ := by
      simpa [processBooks] using h.symm
    subst hr
    simp at hnp
  | cons bid rest ih =>
    intro po r h np hnp
    rw [processBooks] at h
    cases hpg : pyGetB books bid with
    | none =>
      simp only [hpg] at h
      obtain ⟨b, hb1, hb2, hb3⟩ := ih po r h np hnp
      exact ⟨b, List.mem_cons_of_mem _ hb1, hb2, hb3⟩
    | some name =>
      simp only [hpg] at h
      by_cases hname : name = ""
      · rw [if_pos hname] at h
        obtain ⟨b, hb1, hb2, hb3⟩ := ih po r h np hnp
        exact ⟨b, List.mem_cons_of_mem _ hb1, hb2, hb3⟩
      · rw [if_neg hname] at h
        have htr : truthyName (pyGetB books bid) = true := by
          rw [hpg]
          simp [truthyName, hname]
        cases hch : sortedKeysN (vLookup verses bid) with
        | nil =>
          simp only [hch] at h
          exact Option.noConfusion h
        | cons first restch =>
          simp only [hch] at h
          cases hrec : processBooks books verses xf xt
              (processChapters (book_title_formatter name) bid first
                (tocLinkStr bid (first :: restch)) (first :: restch) (vLookup verses bid) xf xt
                (po + 1) (first :: restch)).po rest with
          | none =>
            simp only [hrec] at h
            exact Option.noConfusion h
          | some rr =>
            simp only [hrec] at h
            rw [← Option.some.inj h] at hnp
            rcases List.mem_cons.mp hnp with h1 | h1
            · exact ⟨bid, List.mem_cons_self _ _, htr,
                Or.inl ⟨po, book_title_formatter name, first, h1⟩⟩
            · rcases List.mem_append.mp h1 with h2 | h2
              · rcases processChapters_nav_mem (book_title_formatter name) bid first
                  (tocLinkStr bid (first :: restch)) (first :: restch) (vLookup verses bid)
                  xf xt _ _ np h2 with ⟨c, p, hc⟩ | ⟨c, p, v, hc⟩
                · exact ⟨bid, List.mem_cons_self _ _, htr, Or.inr (Or.inl ⟨c, p, _, hc⟩)⟩
                · exact ⟨bid, List.mem_cons_self _ _, htr,
                    Or.inr (Or.inr ⟨c, v, p, _, hc⟩)⟩
              · obtain ⟨b, hb1, hb2, hb3⟩ := ih _ rr hrec np h2
                exact ⟨b, List.mem_cons_of_mem _ hb1, hb2, hb3⟩

theorem processBooks_files_mem (books : Books) (verses : Verses) (xf xt : XrefMap) :
    ∀ (bids : List Nat) (po : Nat) (r : CAcc),
      processBooks books verses xf xt po bids = some r →
      ∀ pf ∈ r.files, ∃ bid, bid ∈ bids ∧ truthyName (pyGetB books bid) = true ∧
        (∃ c, pf.fname = "OEBPS/" ++ chapFname bid c) ∧
        ∀ h ∈ pf.hrefs, chapterHrefShape bid h := by
  intro bids
  induction bids with
  | nil =>
    intro po r h pf hpf
    have hr : r = ⟨[], [], [], [], po⟩ := by
      simpa [processBooks] using h.symm
    subst hr
    simp at hpf
  | cons bid rest ih =>
    intro po r h pf hpf
    rw [processBooks] at h
    cases hpg : pyGetB books bid with
    | none =>
      simp only [hpg] at h
      obtain ⟨b, hb1, hb2, hb3⟩ := ih po r h pf hpf
      exact ⟨b, List.mem_cons_of_mem _ hb1, hb2, hb3⟩
    | some name =>
      simp only [hpg] at h
      by_cases hname : name = ""
      · rw [if_pos hname] at h
        obtain ⟨b, hb1, hb2, hb3⟩ := ih po r h pf hpf
        exact ⟨b, List.mem_cons_of_mem _ hb1, hb2, hb3⟩
      · rw [if_neg hname] at h
        have htr : truthyName (pyGetB books bid) = true := by
          rw [hpg]
          simp [truthyName, hname]
        cases hch : sortedKeysN (vLookup verses bid) with
        | nil =>
          simp only [hch] at h
          exact Option.noConfusion h
        | cons first restch =>
          simp only [hch] at h
          cases hrec : processBooks books verses xf xt
              (processChapters (book_title_formatter name) bid first
                (tocLinkStr bid (first :: restch)) (first :: restch) (vLookup verses bid) xf xt
                (po + 1) (first :: restch)).po rest with
          | none =>
            simp only [hrec] at h
            exact Option.noConfusion h
          | some rr =>
            simp only [hrec] at h
            rw [← Option.some.inj h] at hpf
            rcases List.mem_append.mp hpf with h1 | h1
            · obtain ⟨hc1, hc2⟩ := processChapters_files_mem (book_title_formatter name) bid first
                (tocLinkStr bid (first :: restch)) (first :: restch) (vLookup verses bid)
                xf xt _ _ pf h1
              exact ⟨bid, List.mem_cons_self _ _, htr, hc1, hc2⟩
            · obtain ⟨b, hb1, hb2, hb3⟩ := ih _ rr hrec pf h1
              exact ⟨b, List.mem_cons_of_mem _ hb1, hb2, hb3⟩

/-! The abort condition: the only failure of the assembler is the
empty-chapter subscript while building the index entry of a kept book. -/

theorem optMapList_eq_none (f : Nat → Option (Option (Nat × Nat × String))) :
    ∀ l : List Nat, optMapList f l = none ↔ ∃ b ∈ l, f b = none := by
  intro l
  induction l with
  | nil => simp [optMapList]
  | cons b bs ih =>
    rw [optMapList]
    cases hfb : f b with
    | none =>
      simp only []
      constructor
      · intro _
        exact ⟨b, List.mem_cons_self _ _, hfb⟩
      · intro _
        trivial
    | some o =>
      cases o with
      | none =>
        simp only []
        rw [ih]
        constructor
        · rintro ⟨x, hx, hfx⟩
          exact ⟨x, List.mem_cons_of_mem _ hx, hfx⟩
        · rintro ⟨x, hx, hfx⟩
          rcases List.mem_cons.mp hx with h1 | h1
          · subst h1
            rw [hfb] at hfx
            exact Option.noConfusion hfx
          · exact ⟨x, h1, hfx⟩
      | some e =>
        simp only [Option.map_eq_none']
        rw [ih]
        constructor
        · rintro ⟨x, hx, hfx⟩
          exact ⟨x, List.mem_cons_of_mem _ hx, hfx⟩
        · rintro ⟨x, hx, hfx⟩
          rcases List.mem_cons.mp hx with h1 | h1
          · subst h1
            rw [hfb] at hfx
            exact Option.noConfusion hfx
          · exact ⟨x, h1, hfx⟩

theorem bookEntry_eq_none (books : Books) (verses : Verses) (bid : Nat) :
    bookEntry books verses bid = none ↔
      truthyName (pyGetB books bid) = true ∧ sortedKeysN (vLookup verses bid) = [] := by
  cases hpg : pyGetB books bid with
  | none => simp [bookEntry, hpg, truthyName]
  | some name =>
    by_cases hname : name = ""
    · simp [bookEntry, hpg, hname, truthyName]
    · cases hch : sortedKeysN (vLookup verses bid) with
      | nil => simp [bookEntry, hpg, hch, hname, truthyName]
      | cons f r => simp [bookEntry, hpg, hch, hname, truthyName]

theorem processBooks_eq_none (books : Books) (verses : Verses) (xf xt : XrefMap) :
    ∀ (bids : List Nat) (po : Nat),
      processBooks books verses xf xt po bids = none →
      ∃ bid ∈ bids, truthyName (pyGetB books bid) = true ∧
        sortedKeysN (vLookup verses bid) = [] := by
  intro bids
  induction bids with
  | nil =>
    intro po h
    simp [processBooks] at h
  | cons bid rest ih =>
    intro po h
    rw [processBooks] at h
    cases hpg : pyGetB books bid with
    | none =>
      simp only [hpg] at h
      obtain ⟨b, hb, ht, hc⟩ := ih po h
      exact ⟨b, List.mem_cons_of_mem _ hb, ht, hc⟩
    | some name =>
      simp only [hpg] at h
      by_cases hname : name = ""
      · rw [if_pos hname] at h
        obtain ⟨b, hb, ht, hc⟩ := ih po h
        exact ⟨b, List.mem_cons_of_mem _ hb, ht, hc⟩
      · rw [if_neg hname] at h
        have htr : truthyName (pyGetB books bid) = true := by
          rw [hpg]
          simp [truthyName, hname]
        cases hch : sortedKeysN (vLookup verses bid) with
        | nil => exact ⟨bid, List.mem_cons_self _ _, htr, hch⟩
        | cons first restch =>
          simp only [hch] at h
          cases hrec : processBooks books verses xf xt
              (processChapters (book_title_formatter name) bid first
                (tocLinkStr bid (first :: restch)) (first :: restch) (vLookup verses bid) xf xt
                (po + 1) (first :: restch)).po rest with
          | none =>
            obtain ⟨b, hb, ht, hc⟩ := ih _ hrec
            exact ⟨b, List.mem_cons_of_mem _ hb, ht, hc⟩
          | some rr =>
            simp only [hrec] at h
            exact Option.noConfusion h

theorem sortedKeysN_nil_iff {α : Type} (l : List (Nat × α)) : sortedKeysN l = [] ↔ l = [] := by
  unfold sortedKeysN
  constructor
  · intro h
    have hlen := (List.perm_insertionSort (fun a b => a ≤ b) (l.map Prod.fst)).length_eq
    rw [h] at hlen
    simp only [List.length_nil, List.length_map] at hlen
    exact List.length_eq_zero.mp hlen.symm
  · intro h
    rw [h]
    rfl

theorem mem_sortedKeysN {α : Type} (l : List (Nat × α)) (b : Nat) :
    b ∈ sortedKeysN l ↔ b ∈ l.map Prod.fst :=
  (List.perm_insertionSort _ _).mem_iff

theorem create_epub_eq_none_iff (books : Books) (verses : Verses) (xf xt : XrefMap) :
    create_epub books verses xf xt = none ↔
      ∃ bid ∈ verses.map Prod.fst, truthyName (pyGetB books bid) = true ∧
        vLookup verses bid = [] := by
  unfold create_epub bookListM
  constructor
  · intro h
    cases hbl : optMapList (bookEntry books verses) (sortedKeysN verses) with
    | none =>
      obtain ⟨b, hb, hfb⟩ := (optMapList_eq_none _ _).mp hbl
      obtain ⟨ht, hch⟩ := (bookEntry_eq_none books verses b).mp hfb
      exact ⟨b, (mem_sortedKeysN verses b).mp hb, ht, (sortedKeysN_nil_iff _).mp hch⟩
    | some bl =>
      simp only [hbl] at h
      cases hpb : processBooks books verses xf xt 1 (sortedKeysN verses) with
      | none =>
        obtain ⟨b, hb, ht, hch⟩ := processBooks_eq_none books verses xf xt _ 1 hpb
        exact ⟨b, (mem_sortedKeysN verses b).mp hb, ht, (sortedKeysN_nil_iff _).mp hch⟩
      | some r =>
        simp only [hpb] at h
        exact Option.noConfusion h
  · rintro ⟨b, hb, ht, hv⟩
    have hfb : bookEntry books verses b = none :=
      (bookEntry_eq_none books verses b).mpr ⟨ht, by rw [hv]; rfl⟩
    have hnone : optMapList (bookEntry books verses) (sortedKeysN verses) = none :=
      (optMapList_eq_none _ _).mpr ⟨b, (mem_sortedKeysN verses b).mpr hb, hfb⟩
    simp only [hnone]

/-! The book list of the index page: only kept books appear on it. -/

theorem optMapList_mem (f : Nat → Option (Option (Nat × Nat × String))) :
    ∀ (l : List Nat) (res : List (Nat × Nat × String)),
      optMapList f l = some res → ∀ e ∈ res, ∃ b ∈ l, f b = some (some e) := by
  intro l
  induction l with
  | nil =>
    intro res h e he
    have : res = [] := by simpa [optMapList] using h.symm
    subst this
    simp at he
  | cons b bs ih =>
    intro res h e he
    rw [optMapList] at h
    cases hfb : f b with
    | none =>
      rw [hfb] at h
      exact Option.noConfusion h
    | some o =>
      cases o with
      | none =>
        simp only [hfb] at h
        obtain ⟨x, hx, hfx⟩ := ih res h e he
        exact ⟨x, List.mem_cons_of_mem _ hx, hfx⟩
      | some e0 =>
        simp only [hfb] at h
        cases hrec : optMapList f bs with
        | none =>
          rw [hrec] at h
          exact Option.noConfusion h
        | some res' =>
          rw [hrec] at h
          have hres : res = e0 :: res' := by simpa using h.symm
          subst hres
          rcases List.mem_cons.mp he with h1 | h1
          · subst h1
            exact ⟨b, List.mem_cons_self _ _, hfb⟩
          · obtain ⟨x, hx, hfx⟩ := ih res' hrec e h1
            exact ⟨x, List.mem_cons_of_mem _ hx, hfx⟩

theorem bookEntry_some_some (books : Books) (verses : Verses) (bid : Nat)
    (e : Nat × Nat × String) (h : bookEntry books verses bid = some (some e)) :
    e.1 = bid ∧ truthyName (pyGetB books bid) = true := by
  cases hpg : pyGetB books bid with
  | none =>
    simp only [bookEntry, hpg] at h
    simp at h
  | some name =>
    simp only [bookEntry, hpg] at h
    by_cases hname : name = ""
    · rw [if_pos hname] at h
      simp at h
    · rw [if_neg hname] at h
      cases hch : sortedKeysN (vLookup verses bid) with
      | nil =>
        simp only [hch] at h
        exact Option.noConfusion h
      | cons first restch =>
        simp only [hch] at h
        cases Option.some.inj (Option.some.inj h)
        exact ⟨rfl, by simp [truthyName, hname]⟩

theorem bookListM_mem (books : Books) (verses : Verses) (bl : List (Nat × Nat × String))
    (h : bookListM books verses = some bl) :
    ∀ e ∈ bl, truthyName (pyGetB books e.1) = true := by
  intro e he
  obtain ⟨b, _, hfb⟩ := optMapList_mem (bookEntry books verses) _ bl h e he
  obtain ⟨he1, ht⟩ := bookEntry_some_some books verses b e hfb
  rw [he1]
  exact ht

/-! The cross-reference page: membership of the merged key list, and the
decomposition of the page around one entry. -/

theorem string_empty_append (s : String) : "" ++ s = s := by
  apply string_data_inj
  rw [String.data_append]
  rfl

theorem joinAll_append (a b : List String) : joinAll a ++ joinAll b = joinAll (a ++ b) := by
  induction a with
  | nil =>
    simp only [joinAll, List.nil_append]
    exact string_empty_append _
  | cons s rest ih =>
    simp only [joinAll, List.cons_append]
    rw [String.append_assoc, ih]
    rfl

theorem joinAll_flatMap_split (f : Coord → List String) {k : Coord} {l : List Coord}
    (hk : k ∈ l) :
    ∃ s1 s2, joinAll (l.flatMap f) = s1 ++ (joinAll (f k) ++ s2) := by
  obtain ⟨l1, l2, rfl⟩ := List.append_of_mem hk
  refine ⟨joinAll (l1.flatMap f), joinAll (l2.flatMap f), ?_⟩
  rw [List.flatMap_append, List.flatMap_cons, ← joinAll_append, ← joinAll_append]

theorem mem_xrefKeys_iff (xf xt : XrefMap) (k : Coord) :
    k ∈ xrefKeys xf xt ↔ k ∈ xf.map Prod.fst ∨ k ∈ xt.map Prod.fst := by
  unfold xrefKeys
  rw [(List.perm_insertionSort _ _).mem_iff, List.mem_dedup, List.mem_append]

theorem string_append_empty (s : String) : s ++ "" = s := by
  apply string_data_inj
  rw [String.data_append]
  simp

theorem btf_head_not_digit {s : String} {c : Char} {rest : List Char}
    (hd : s.data = c :: rest) (hc : ¬ c.isDigit = true) : book_title_formatter s = s := by
  unfold book_title_formatter
  rw [hd]
  simp only [takeDigits, if_neg hc]

theorem btf_book_label (b : Nat) :
    book_title_formatter ("Book " ++ natStr b) = "Book " ++ natStr b := by
  refine @btf_head_not_digit ("Book " ++ natStr b) 'B'
    ('o' :: 'o' :: 'k' :: ' ' :: (natStr b).data) ?_ ?_
  · rw [String.data_append]
    rfl
  · decide

theorem xrefVerseLabel_placeholder (books : Books) (b : Nat) (h : pyGetB books b = none) :
    xrefVerseLabel books b = "Book " ++ natStr b := by
  unfold xrefVerseLabel pyGetBD
  rw [h, Option.getD_none]
  exact btf_book_label b

theorem joinAll_xrefEntry (books : Books) (xf xt : XrefMap) (k : Coord) :
    joinAll (xrefEntry books xf xt k) =
      xrefHeading books k ++ joinAll (xrefFromBlock books xf k ++ xrefToBlock books xt k) := rfl

theorem xref_page_has_entry (books : Books) (xf xt : XrefMap) (k : Coord) (page : String)
    (hpage : generate_cross_reference_section books xf xt = some page)
    (hk : k ∈ xrefKeys xf xt) :
    ∃ s1 s2, page = s1 ++ (joinAll (xrefEntry books xf xt k) ++ s2) := by
  unfold generate_cross_reference_section at hpage
  by_cases h1 : (xf.isEmpty && xt.isEmpty) = true
  · rw [if_pos h1] at hpage
    exact Option.noConfusion hpage
  · rw [if_neg h1] at hpage
    by_cases h2 : ((xf.map Prod.fst ++ xt.map Prod.fst).dedup).isEmpty = true
    · rw [if_pos h2] at hpage
      exact Option.noConfusion hpage
    · rw [if_neg h2] at hpage
      have hp := Option.some.inj hpage
      obtain ⟨s1, s2, hsplit⟩ := joinAll_flatMap_split (xrefEntry books xf xt) hk
      refine ⟨xrefHeader ++ s1, s2 ++ "</body></html>", ?_⟩
      rw [← hp]
      show xrefHeader ++
          joinAll ((xrefKeys xf xt).flatMap (xrefEntry books xf xt) ++ ["</body></html>"]) =
        (xrefHeader ++ s1) ++ (joinAll (xrefEntry books xf xt k) ++ (s2 ++ "</body></html>"))
      rw [← joinAll_append, hsplit]
      show xrefHeader ++ ((s1 ++ (joinAll (xrefEntry books xf xt k) ++ s2)) ++
          ("</body></html>" ++ "")) =
        (xrefHeader ++ s1) ++ (joinAll (xrefEntry books xf xt k) ++ (s2 ++ "</body></html>"))
      rw [string_append_empty]
      simp [String.append_assoc]

theorem xref_section_ne_empty (books : Books) (xf xt : XrefMap) (page : String)
    (hpage : generate_cross_reference_section books xf xt = some page) : ¬ page = "" := by
  intro hempty
  subst hempty
  unfold generate_cross_reference_section at hpage
  by_cases h1 : (xf.isEmpty && xt.isEmpty) = true
  · rw [if_pos h1] at hpage
    exact Option.noConfusion hpage
  · rw [if_neg h1] at hpage
    by_cases h2 : ((xf.map Prod.fst ++ xt.map Prod.fst).dedup).isEmpty = true
    · rw [if_pos h2] at hpage
      exact Option.noConfusion hpage
    · rw [if_neg h2] at hpage
      have hp := Option.some.inj hpage
      have hdata := congrArg String.data hp
      rw [show joinAll (xrefHeader ::
          ((xrefKeys xf xt).flatMap (xrefEntry books xf xt) ++ ["</body></html>"])) =
          xrefHeader ++ joinAll ((xrefKeys xf xt).flatMap (xrefEntry books xf xt) ++
            ["</body></html>"]) from rfl, String.data_append] at hdata
      have : xrefHeader.data = [] := (List.append_eq_nil.mp hdata).1
      exact absurd this (by decide)

/-! Congruence in the book mapping: the assembler's index, chapter pages
and navigation depend on the mapping only through the effective name. -/

theorem bookEntry_congr (books1 books2 : Books) (verses : Verses) (bid : Nat)
    (h : getName books1 bid = getName books2 bid) :
    bookEntry books1 verses bid = bookEntry books2 verses bid := by
  unfold getName at h
  unfold bookEntry
  cases h1 : pyGetB books1 bid with
  | none =>
    cases h2 : pyGetB books2 bid with
    | none => rfl
    | some n2 =>
      simp only [h1, h2] at h
      by_cases hn2 : n2 = ""
      · subst hn2
        simp
      · rw [if_neg hn2] at h
        exact Option.noConfusion h
  | some n1 =>
    cases h2 : pyGetB books2 bid with
    | none =>
      simp only [h1, h2] at h
      by_cases hn1 : n1 = ""
      · subst hn1
        simp
      · rw [if_neg hn1] at h
        exact Option.noConfusion h
    | some n2 =>
      simp only [h1, h2] at h
      by_cases hn1 : n1 = ""
      · by_cases hn2 : n2 = ""
        · subst hn1
          subst hn2
          rfl
        · rw [if_pos hn1, if_neg hn2] at h
          exact Option.noConfusion h
      · by_cases hn2 : n2 = ""
        · rw [if_neg hn1, if_pos hn2] at h
          exact Option.noConfusion h
        · rw [if_neg hn1, if_neg hn2] at h
          have heq : n1 = n2 := Option.some.inj h
          subst heq
          rfl

theorem optMapList_congr (f g : Nat → Option (Option (Nat × Nat × String)))
    (h : ∀ b, f b = g b) : ∀ l : List Nat, optMapList f l = optMapList g l := by
  intro l
  induction l with
  | nil => rfl
  | cons b bs ih =>
    rw [optMapList, optMapList, h b, ih]

theorem processBooks_congr (books1 books2 : Books) (verses : Verses) (xf xt : XrefMap)
    (hg : ∀ bid, getName books1 bid = getName books2 bid) :
    ∀ (bids : List Nat) (po : Nat),
      processBooks books1 verses xf xt po bids = processBooks books2 verses xf xt po bids := by
  intro bids
  induction bids with
  | nil => intro po; rfl
  | cons bid rest ih =>
    intro po
    have h := hg bid
    unfold getName at h
    rw [processBooks]
    conv_rhs => rw [processBooks]
    cases h1 : pyGetB books1 bid with
    | none =>
      cases h2 : pyGetB books2 bid with
      | none =>
        exact ih po
      | some n2 =>
        simp only [h1, h2] at h
        simp only []
        by_cases hn2 : n2 = ""
        · rw [if_pos hn2]
          exact ih po
        · rw [if_neg hn2] at h
          exact Option.noConfusion h
    | some n1 =>
      cases h2 : pyGetB books2 bid with
      | none =>
        simp only [h1, h2] at h
        simp only []
        by_cases hn1 : n1 = ""
        · rw [if_pos hn1]
          exact ih po
        · rw [if_neg hn1] at h
          exact Option.noConfusion h
      | some n2 =>
        simp only [h1, h2] at h
        simp only []
        by_cases hn1 : n1 = ""
        · by_cases hn2 : n2 = ""
          · rw [if_pos hn1, if_pos hn2]
            exact ih po
          · rw [if_pos hn1, if_neg hn2] at h
            exact Option.noConfusion h
        · by_cases hn2 : n2 = ""
          · rw [if_neg hn1, if_pos hn2] at h
            exact Option.noConfusion h
          · rw [if_neg hn1, if_neg hn2] at h
            have heq : n1 = n2 := Option.some.inj h
            subst heq
            rw [if_neg hn1, if_neg hn1]
            cases hch : sortedKeysN (vLookup verses bid) with
            | nil => simp only [hch]
            | cons first restch =>
              simp only [hch]
              rw [ih]

theorem pyGetB_filter_ne (books : Books) (b0 bid : Nat) (hne : bid ≠ b0) :
    pyGetB (books.filter (fun p => !(p.1 == b0))) bid = pyGetB books bid := by
  unfold pyGetB
  induction books with
  | nil => rfl
  | cons p rest ih =>
    by_cases hp : p.1 = b0
    · rw [List.filter_cons_of_neg (by simp [hp])]
      rw [List.find?_cons_of_neg _ (by simp [hp]; omega)]
      exact ih
    · rw [List.filter_cons_of_pos (by simp [hp])]
      by_cases hb : p.1 = bid
      · rw [List.find?_cons_of_pos _ (by simp [hb]), List.find?_cons_of_pos _ (by simp [hb])]
      · rw [List.find?_cons_of_neg _ (by simp [hb]), List.find?_cons_of_neg _ (by simp [hb])]
        exact ih

theorem pyGetB_filter_self (books : Books) (b0 : Nat) :
    pyGetB (books.filter (fun p => !(p.1 == b0))) b0 = none := by
  unfold pyGetB
  rw [List.find?_eq_none.mpr]
  · rfl
  · intro p hp
    have := (List.mem_filter.mp hp).2
    simpa using this

theorem getName_filter (books : Books) (b0 : Nat) (h : pyGetB books b0 = some "") :
    ∀ bid, getName (books.filter (fun p => !(p.1 == b0))) bid = getName books bid := by
  intro bid
  by_cases hb : bid = b0
  · subst hb
    unfold getName
    rw [pyGetB_filter_self, h]
    rfl
  · unfold getName
    rw [pyGetB_filter_ne books b0 bid hb]

/-! Null verse texts: replacing every missing text by the empty string
does not change the assembler's output, because verse text enters only
through `.get(verse, "") or ""`. -/

theorem map_fst_normVerses (verses : Verses) :
    (normVerses verses).map Prod.fst = verses.map Prod.fst := by
  simp [normVerses]

theorem sortedKeysN_normVerses (verses : Verses) :
    sortedKeysN (normVerses verses) = sortedKeysN verses := by
  unfold sortedKeysN
  rw [map_fst_normVerses]

theorem find?_map_key {β γ : Type} (f : β → γ) (l : List (Nat × β)) (k : Nat) :
    List.find? (fun p => p.1 == k) (l.map (fun p => (p.1, f p.2))) =
      (List.find? (fun p => p.1 == k) l).map (fun p => (p.1, f p.2)) := by
  induction l with
  | nil => rfl
  | cons p rest ih =>
    rw [List.map_cons, List.find?_cons, List.find?_cons]
    by_cases hp : (p.1 == k) = true
    · simp [hp]
    · simp only [show ((p.1, f p.2).1 == k) = false from by simpa using hp,
        show (p.1 == k) = false from by simpa using hp]
      exact ih

theorem vLookup_normVerses (verses : Verses) (bid : Nat) :
    vLookup (normVerses verses) bid =
      (vLookup verses bid).map
        (fun q => (q.1, q.2.map (fun v => (v.1, some (v.2.getD ""))))) := by
  unfold vLookup normVerses
  rw [find?_map_key]
  cases List.find? (fun p => p.1 == bid) verses <;> simp

theorem cLookup_norm (vb : VerseBook) (ch : Nat) :
    cLookup (vb.map (fun q => (q.1, q.2.map (fun v => (v.1, some (v.2.getD "")))))) ch =
      (cLookup vb ch).map (fun v => (v.1, some (v.2.getD ""))) := by
  unfold cLookup
  rw [find?_map_key]
  cases List.find? (fun p => p.1 == ch) vb <;> simp

theorem sortedKeysN_map_norm (vb : VerseBook) :
    sortedKeysN (vb.map (fun q => (q.1, q.2.map (fun v => (v.1, some (v.2.getD "")))))) =
      sortedKeysN vb := by
  unfold sortedKeysN
  rw [List.map_map]
  apply congrArg
  apply List.map_congr_left
  intro q hq
  rfl

theorem verseLine_norm (bid chap : Nat) (xf xt : XrefMap) (v : Nat × Option String) :
    verseLine bid chap xf xt (v.1, some (v.2.getD "")) = verseLine bid chap xf xt v := rfl

theorem verseHrefs_norm (bid chap : Nat) (xf xt : XrefMap) (v : Nat × Option String) :
    verseHrefs bid chap xf xt (v.1, some (v.2.getD "")) = verseHrefs bid chap xf xt v := rfl

theorem processVerses_norm (bn : String) (bid chap : Nat) (fname : String) (xf xt : XrefMap) :
    ∀ (vs : List (Nat × Option String)) (po : Nat),
      processVerses bn bid chap fname xf xt po
          (vs.map (fun v => (v.1, some (v.2.getD "")))) =
        processVerses bn bid chap fname xf xt po vs := by
  intro vs
  induction vs with
  | nil => intro po; rfl
  | cons v rest ih =>
    intro po
    simp only [List.map_cons, processVerses]
    rw [ih, verseLine_norm, verseHrefs_norm]

theorem processChapters_norm (bn : String) (bid first : Nat) (tocLinks : String)
    (chapters : List Nat) (vb : VerseBook) (xf xt : XrefMap) :
    ∀ (l : List Nat) (po : Nat),
      processChapters bn bid first tocLinks chapters
          (vb.map (fun q => (q.1, q.2.map (fun v => (v.1, some (v.2.getD "")))))) xf xt po l =
        processChapters bn bid first tocLinks chapters vb xf xt po l := by
  intro l
  induction l with
  | nil => intro po; rfl
  | cons chap rest ih =>
    intro po
    simp only [processChapters]
    rw [cLookup_norm, processVerses_norm, ih]

theorem processBooks_norm (books : Books) (verses : Verses) (xf xt : XrefMap) :
    ∀ (bids : List Nat) (po : Nat),
      processBooks books (normVerses verses) xf xt po bids =
        processBooks books verses xf xt po bids := by
  intro bids
  induction bids with
  | nil => intro po; rfl
  | cons bid rest ih =>
    intro po
    rw [processBooks]
    conv_rhs => rw [processBooks]
    cases hpg : pyGetB books bid with
    | none => exact ih po
    | some name =>
      simp only []
      by_cases hn : name = ""
      · rw [if_pos hn, if_pos hn]
        exact ih po
      · rw [if_neg hn, if_neg hn, vLookup_normVerses, sortedKeysN_map_norm]
        cases hch : sortedKeysN (vLookup verses bid) with
        | nil => simp only [hch]
        | cons first restch =>
          simp only [hch]
          rw [processChapters_norm, ih]

theorem bookEntry_norm (books : Books) (verses : Verses) (bid : Nat) :
    bookEntry books (normVerses verses) bid = bookEntry books verses bid := by
  unfold bookEntry
  cases hpg : pyGetB books bid with
  | none => rfl
  | some name =>
    simp only []
    by_cases hn : name = ""
    · rw [if_pos hn, if_pos hn]
    · rw [if_neg hn, if_neg hn, vLookup_normVerses, sortedKeysN_map_norm]

theorem bookListM_norm (books : Books) (verses : Verses) :
    bookListM books (normVerses verses) = bookListM books verses := by
  unfold bookListM
  rw [sortedKeysN_normVerses]
  exact optMapList_congr _ _ (fun b => bookEntry_norm books verses b) _

theorem create_epub_norm (books : Books) (verses : Verses) (xf xt : XrefMap) :
    create_epub books (normVerses verses) xf xt = create_epub books verses xf xt := by
  unfold create_epub
  rw [bookListM_norm, sortedKeysN_normVerses, processBooks_norm]

/-! Shape of the assembled package. -/

theorem hasX_eq_isSome (books : Books) (xf xt : XrefMap) :
    (match generate_cross_reference_section books xf xt with
      | some s => !(s == "")
      | none => false) = (generate_cross_reference_section books xf xt).isSome := by
  cases hxc : generate_cross_reference_section books xf xt with
  | none => rfl
  | some s =>
    have hne := xref_section_ne_empty books xf xt s hxc
    simp [hne]

theorem xc_isSome_indep (books1 books2 : Books) (xf xt : XrefMap) :
    (generate_cross_reference_section books1 xf xt).isSome =
      (generate_cross_reference_section books2 xf xt).isSome := by
  unfold generate_cross_reference_section
  by_cases h1 : (xf.isEmpty && xt.isEmpty) = true
  · rw [if_pos h1, if_pos h1]
  · rw [if_neg h1, if_neg h1]
    by_cases h2 : ((xf.map Prod.fst ++ xt.map Prod.fst).dedup).isEmpty = true
    · rw [if_pos h2, if_pos h2]
    · rw [if_neg h2, if_neg h2]
      rw [Option.isSome_some, Option.isSome_some]

theorem create_epub_shape (books : Books) (verses : Verses) (xf xt : XrefMap) (out : EpubOut)
    (h : create_epub books verses xf xt = some out) :
    ∃ (bl : List (Nat × Nat × String)) (r : CAcc),
      bookListM books verses = some bl ∧
      processBooks books verses xf xt 1 (sortedKeysN verses) = some r ∧
      out.bookList = bl ∧
      out.index = ⟨"OEBPS/i.html", indexPageContent bl, indexHrefs bl⟩ ∧
      out.chapters = r.files ∧
      out.xrefPage = generate_cross_reference_section books xf xt ∧
      out.manifest = ("index", "i.html") :: r.manifest ++
        (if (generate_cross_reference_section books xf xt).isSome then [("xrefs", "x.html")]
         else []) ∧
      out.spine = "index" :: r.spine ++
        (if (generate_cross_reference_section books xf xt).isSome then ["xrefs"] else []) ∧
      out.nav = r.nav ++
        (if (generate_cross_reference_section books xf xt).isSome then
          [⟨"x", r.po, "Cross References", "x.html#c"⟩] else []) := by
  unfold create_epub at h
  cases hbl : bookListM books verses with
  | none =>
    rw [hbl] at h
    exact Option.noConfusion h
  | some bl =>
    rw [hbl] at h
    cases hpb : processBooks books verses xf xt 1 (sortedKeysN verses) with
    | none =>
      rw [hpb] at h
      exact Option.noConfusion h
    | some r =>
      rw [hpb] at h
      refine ⟨bl, r, rfl, rfl, ?_⟩
      rw [← Option.some.inj h]
      rw [hasX_eq_isSome]
      exact ⟨rfl, rfl, rfl, rfl, rfl, rfl, rfl⟩

/-! Identifier disjointness for the manifest and spine. -/

theorem itemId_head_digit (b c : Nat) :
    ∃ d rest, (itemId b c).data = d :: rest ∧ d.isDigit = true := by
  cases hn : (natStr b).data with
  | nil => exact absurd hn (natStr_ne_nil b)
  | cons d rest =>
    refine ⟨d, rest ++ '-' :: (natStr c).data, ?_, ?_⟩
    · show (natStr b).data ++ '-' :: (natStr c).data = _
      rw [hn]
      rfl
    · exact natStr_digits b d (by rw [hn]; exact List.mem_cons_self d rest)

theorem itemId_ne_index (b c : Nat) : itemId b c ≠ "index" := by
  intro h
  obtain ⟨d, rest, hd, hdig⟩ := itemId_head_digit b c
  have := congrArg String.data h
  rw [hd] at this
  have hdi : d = 'i' := by
    have := congrArg (fun l => l.head?) this
    simpa using this
  rw [hdi] at hdig
  exact absurd hdig (by decide)

theorem itemId_ne_xrefs (b c : Nat) : itemId b c ≠ "xrefs" := by
  intro h
  obtain ⟨d, rest, hd, hdig⟩ := itemId_head_digit b c
  have := congrArg String.data h
  rw [hd] at this
  have hdi : d = 'x' := by
    have := congrArg (fun l => l.head?) this
    simpa using this
  rw [hdi] at hdig
  exact absurd hdig (by decide)

/-! Nodup of the sorted key lists. -/

theorem sortedKeysN_nodup {α : Type} (l : List (Nat × α)) (h : (l.map Prod.fst).Nodup) :
    (sortedKeysN l).Nodup :=
  (List.perm_insertionSort _ (l.map Prod.fst)).nodup_iff.mpr h

theorem sortedKeysN_sorted {α : Type} (l : List (Nat × α)) :
    List.Sorted (fun a b => a ≤ b) (sortedKeysN l) :=
  List.sorted_insertionSort _ (l.map Prod.fst)

theorem sortedKeysN_vLookup_nodup (verses : Verses) (bid : Nat)
    (hc : ∀ p ∈ verses, (p.2.map Prod.fst).Nodup) :
    (sortedKeysN (vLookup verses bid)).Nodup := by
  apply sortedKeysN_nodup
  unfold vLookup
  cases hf : verses.find? (fun p => p.1 == bid) with
  | none => simp
  | some p =>
    have hmem := List.mem_of_find?_eq_some hf
    simpa using hc p hmem

/-- The chapter item ids of the whole package, over the kept books, are
duplicate-free when the input dict key lists are. -/
theorem chapter_ids_nodup (books : Books) (verses : Verses)
    (hv : (verses.map Prod.fst).Nodup)
    (hc : ∀ p ∈ verses, (p.2.map Prod.fst).Nodup) :
    (((sortedKeysN verses).filter (fun bid => truthyName (pyGetB books bid))).flatMap
      (fun bid => (sortedKeysN (vLookup verses bid)).map (fun c => itemId bid c))).Nodup := by
  apply List.nodup_flatMap.mpr
  constructor
  · intro bid _
    apply List.Nodup.map
    · intro c c' hcc
      exact (itemId_inj hcc).2
    · exact sortedKeysN_vLookup_nodup verses bid hc
  · have hnb : ((sortedKeysN verses).filter
        (fun bid => truthyName (pyGetB books bid))).Nodup :=
      (sortedKeysN_nodup verses hv).filter _
    apply List.Pairwise.imp ?_ hnb
    intro a b hab
    intro x hxa hxb
    obtain ⟨c, _, hca⟩ := List.mem_map.mp hxa
    obtain ⟨c', _, hcb⟩ := List.mem_map.mp hxb
    rw [← hca] at hcb
    exact hab (itemId_inj hcb).1.symm

theorem spine_ids_nodup (books : Books) (verses : Verses) (x : Bool)
    (hv : (verses.map Prod.fst).Nodup)
    (hc : ∀ p ∈ verses, (p.2.map Prod.fst).Nodup) :
    ("index" :: ((sortedKeysN verses).filter (fun bid => truthyName (pyGetB books bid))).flatMap
        (fun bid => (sortedKeysN (vLookup verses bid)).map (fun c => itemId bid c)) ++
      (if x then ["xrefs"] else [])).Nodup := by
  have hflat := chapter_ids_nodup books verses hv hc
  have hmemA : ∀ s ∈ ((sortedKeysN verses).filter
      (fun bid => truthyName (pyGetB books bid))).flatMap
      (fun bid => (sortedKeysN (vLookup verses bid)).map (fun c => itemId bid c)),
      ∃ b c, s = itemId b c := by
    intro s hs
    obtain ⟨bid, _, hmem⟩ := List.mem_flatMap.mp hs
    obtain ⟨c, _, hcs⟩ := List.mem_map.mp hmem
    exact ⟨bid, c, hcs.symm⟩
  cases x with
  | false =>
    simp only [if_neg Bool.false_ne_true, List.append_nil]
    apply List.nodup_cons.mpr
    constructor
    · intro hmem
      obtain ⟨b, c, hbc⟩ := hmemA _ hmem
      exact itemId_ne_index b c hbc.symm
    · exact hflat
  | true =>
    simp only [if_pos rfl]
    show (("index" :: (_ ++ ["xrefs"]))).Nodup
    apply List.nodup_cons.mpr
    constructor
    · intro hmem
      rcases List.mem_append.mp hmem with h | h
      · obtain ⟨b, c, hbc⟩ := hmemA _ h
        exact itemId_ne_index b c hbc.symm
      · simp only [List.mem_singleton] at h
        exact absurd h (by decide)
    · rw [List.nodup_append]
      refine ⟨hflat, List.nodup_singleton _, ?_⟩
      intro a ha hmem
      simp only [List.mem_singleton] at hmem
      obtain ⟨b, c, hbc⟩ := hmemA _ ha
      rw [hmem] at hbc
      exact itemId_ne_xrefs b c hbc.symm

theorem map_fst_manifest_flatMap (verses : Verses) (L : List Nat) :
    ((L.flatMap (fun bid => (sortedKeysN (vLookup verses bid)).map
        (fun c => (itemId bid c, chapFname bid c)))).map Prod.fst) =
      L.flatMap (fun bid => (sortedKeysN (vLookup verses bid)).map (fun c => itemId bid c)) := by
  induction L with
  | nil => rfl
  | cons b bs ih =>
    simp only [List.flatMap_cons, List.map_append, ih, List.map_map]
    rfl

/-! Exclusion of a book absent from the mapping: names and links that can
never refer to it. -/

theorem string_append_left_cancel {p x y : String} (h : p ++ x = p ++ y) : x = y := by
  apply string_data_inj
  have hd := congrArg String.data h
  rw [String.data_append, String.data_append] at hd
  exact List.append_cancel_left hd

theorem head?_append_cons {a : String} {c : Char} {cs : List Char} (ha : a.data = c :: cs)
    (t : String) : (a ++ t).data.head? = some c := by
  rw [String.data_append, ha]
  rfl

theorem natStr_head_digit (b : Nat) :
    ∃ d rest, (natStr b).data = d :: rest ∧ d.isDigit = true := by
  cases hn : (natStr b).data with
  | nil => exact absurd hn (natStr_ne_nil b)
  | cons d rest =>
    exact ⟨d, rest, rfl, natStr_digits b d (by rw [hn]; exact List.mem_cons_self d rest)⟩

theorem itemId3_head_digit (b c v : Nat) :
    ∃ d rest, (itemId3 b c v).data = d :: rest ∧ d.isDigit = true := by
  cases hn : (natStr b).data with
  | nil => exact absurd hn (natStr_ne_nil b)
  | cons d rest =>
    refine ⟨d, rest ++ '-' :: (natStr c).data ++ '-' :: (natStr v).data, ?_, ?_⟩
    · show (natStr b).data ++ '-' :: (natStr c).data ++ '-' :: (natStr v).data = _
      rw [hn]
      rfl
    · exact natStr_digits b d (by rw [hn]; exact List.mem_cons_self d rest)

theorem digit_headed_ne {s t : String}
    (hs : ∃ d rest, s.data = d :: rest ∧ d.isDigit = true)
    {c : Char} {cs : List Char} (ht : t.data = c :: cs) (hc : c.isDigit = false) : s ≠ t := by
  intro h
  obtain ⟨d, rest, hd, hdig⟩ := hs
  rw [h, ht] at hd
  injection hd with h1 h2
  rw [← h1] at hdig
  rw [hc] at hdig
  exact Bool.noConfusion hdig

theorem truthy_ne {books : Books} {b bid : Nat} (hb : pyGetB books b = none)
    (ht : truthyName (pyGetB books bid) = true) : bid ≠ b := by
  intro he
  rw [he, hb] at ht
  simp [truthyName] at ht

theorem ihtml_ne_chapFname (b c : Nat) : "i.html" ≠ chapFname b c := by
  intro h
  have h1 : ("i.html" : String).data.head? = (chapFname b c).data.head? :=
    congrArg (fun s => s.data.head?) h
  rw [chapFname_head] at h1
  exact absurd h1 (by decide)

theorem xhtml_ne_chapFname (b c : Nat) : "x.html" ≠ chapFname b c := by
  intro h
  have h1 : ("x.html" : String).data.head? = (chapFname b c).data.head? :=
    congrArg (fun s => s.data.head?) h
  rw [chapFname_head] at h1
  exact absurd h1 (by decide)

theorem xGet_mem {m : XrefMap} {k t : Coord} (h : t ∈ xGet m k) : ∃ p ∈ m, t ∈ p.2 := by
  unfold xGet at h
  cases hf : m.find? (fun p => p.1 == k) with
  | none =>
    rw [hf] at h
    simp at h
  | some p =>
    rw [hf] at h
    refine ⟨p, List.mem_of_find?_eq_some hf, ?_⟩
    simpa using h

theorem xrefEntryHrefs_avoid (books : Books) (xf xt : XrefMap) (b : Nat) (k : Coord)
    (hxf : xrefAvoidsBook b xf) (hxt : xrefAvoidsBook b xt) (hk1 : k.1 ≠ b) :
    ∀ h ∈ xrefEntryHrefs books xf xt k, ¬ refsBook b h := by
  intro h hh
  unfold xrefEntryHrefs at hh
  rcases List.mem_cons.mp hh with h1 | h1
  · rw [h1]
    exact not_refsBook_chapFname_frag hk1
  · rcases List.mem_cons.mp h1 with h2 | h2
    · rw [h2]
      exact not_refsBook_head (by decide)
    · rcases List.mem_append.mp h2 with h3 | h3
      · by_cases hcnd : (!xf.isEmpty && xMem xf k) = true
        · rw [if_pos hcnd] at h3
          obtain ⟨t, ht, hts⟩ := List.mem_map.mp h3
          obtain ⟨p, hp, htp⟩ := xGet_mem ht
          rw [← hts]
          exact not_refsBook_chapFname_frag ((hxf p hp).2 t htp)
        · rw [if_neg hcnd] at h3
          simp at h3
      · by_cases hcnd : (!xt.isEmpty && xMem xt k) = true
        · rw [if_pos hcnd] at h3
          obtain ⟨t, ht, hts⟩ := List.mem_map.mp h3
          obtain ⟨p, hp, htp⟩ := xGet_mem ht
          rw [← hts]
          exact not_refsBook_chapFname_frag ((hxt p hp).2 t htp)
        · rw [if_neg hcnd] at h3
          simp at h3

theorem xrefPageHrefs_avoid (books : Books) (xf xt : XrefMap) (b : Nat)
    (hxf : xrefAvoidsBook b xf) (hxt : xrefAvoidsBook b xt) :
    ∀ h ∈ xrefPageHrefs books xf xt, ¬ refsBook b h := by
  intro h hh
  unfold xrefPageHrefs at hh
  obtain ⟨k, hk, hmem⟩ := List.mem_flatMap.mp hh
  have hk1 : k.1 ≠ b := by
    rcases (mem_xrefKeys_iff xf xt k).mp hk with h1 | h1
    · obtain ⟨p, hp, hpk⟩ := List.mem_map.mp h1
      rw [← hpk]
      exact (hxf p hp).1
    · obtain ⟨p, hp, hpk⟩ := List.mem_map.mp h1
      rw [← hpk]
      exact (hxt p hp).1
  exact xrefEntryHrefs_avoid books xf xt b k hxf hxt hk1 h hmem

theorem navOfBook_not_mentions {b bid : Nat} {np : NavPoint} (hne : bid ≠ b)
    (h : navOfBook bid np) : ¬ navMentionsBook b np := by
  rcases h with ⟨po, bn, c0, rfl⟩ | ⟨c0, po, bn, rfl⟩ | ⟨c0, v0, po, bn, rfl⟩
  · rintro (h1 | ⟨c, h1⟩ | ⟨c, v, h1⟩ | h1)
    · exact hne (natStr_inj h1)
    · exact natStr_ne_itemId bid b c h1
    · exact natStr_ne_itemId3 bid b c v h1
    · exact not_refsBook_chapFname hne h1
  · rintro (h1 | ⟨c, h1⟩ | ⟨c, v, h1⟩ | h1)
    · exact natStr_ne_itemId b bid c0 h1.symm
    · exact hne (itemId_inj h1).1
    · exact itemId_ne_itemId3 bid c0 b c v h1
    · exact not_refsBook_chapFname hne h1
  · rintro (h1 | ⟨c, h1⟩ | ⟨c, v, h1⟩ | h1)
    · exact natStr_ne_itemId3 b bid c0 v0 h1.symm
    · exact itemId_ne_itemId3 b c bid c0 v0 h1.symm
    · exact hne (itemId3_inj h1).1
    · exact not_refsBook_chapFname_frag hne h1

theorem xnode_not_mentions (b po : Nat) :
    ¬ navMentionsBook b ⟨"x", po, "Cross References", "x.html#c"⟩ := by
  rintro (h1 | ⟨c, h1⟩ | ⟨c, v, h1⟩ | h1)
  · exact digit_headed_ne (natStr_head_digit b) (rfl : ("x" : String).data = 'x' :: [])
      (by decide) h1.symm
  · exact digit_headed_ne (itemId_head_digit b c) (rfl : ("x" : String).data = 'x' :: [])
      (by decide) h1.symm
  · exact digit_headed_ne (itemId3_head_digit b c v) (rfl : ("x" : String).data = 'x' :: [])
      (by decide) h1.symm
  · exact not_refsBook_head (s := "x.html#c") (by decide) h1

theorem chapterHrefShape_not_refs {b bid : Nat} {h : String} (hne : bid ≠ b)
    (hs : chapterHrefShape bid h) : ¬ refsBook b h := by
  rcases hs with h1 | h1 | ⟨c, h1⟩ | ⟨c, h1⟩ | ⟨v, h1⟩ | ⟨c, v, h1⟩
  · rw [h1]
    exact not_refsBook_head (by decide)
  · rw [h1]
    exact not_refsBook_head (by decide)
  · rw [h1]
    exact not_refsBook_chapFname hne
  · have hb : chapFname bid c ++ "#toc" = chapFname bid c ++ "#" ++ "toc" := by
      rw [String.append_assoc]
      apply congrArg
      decide
    rw [h1, hb]
    exact not_refsBook_chapFname_frag hne
  · rw [h1]
    apply not_refsBook_head
    rw [head?_append_cons (rfl : ("#" : String).data = '#' :: []) (natStr v)]
    decide
  · rw [h1]
    apply not_refsBook_head
    rw [show xrefHref bid c v = "x.html#" ++ anchorName bid c v from rfl,
      head?_append_cons (rfl : ("x.html#" : String).data =
        'x' :: ['.', 'h', 't', 'm', 'l', '#']) (anchorName bid c v)]
    decide

theorem xref_isSome_of_mem (books : Books) (xf xt : XrefMap) (k : Coord)
    (hk : k ∈ xrefKeys xf xt) :
    ∃ page, generate_cross_reference_section books xf xt = some page := by
  unfold generate_cross_reference_section
  have hmem : k ∈ (xf.map Prod.fst ++ xt.map Prod.fst).dedup := by
    unfold xrefKeys at hk
    exact (List.perm_insertionSort _ _).mem_iff.mp hk
  have h2 : ((xf.map Prod.fst ++ xt.map Prod.fst).dedup).isEmpty = false := by
    cases hdd : (xf.map Prod.fst ++ xt.map Prod.fst).dedup with
    | nil =>
      rw [hdd] at hmem
      simp at hmem
    | cons a l => rfl
  have h1 : (xf.isEmpty && xt.isEmpty) = false := by
    cases hxf : xf with
    | cons a l => rfl
    | nil =>
      cases hxt : xt with
      | cons a l => rfl
      | nil =>
        subst hxf
        subst hxt
        simp at h2
  rw [if_neg (by simp [h1]), if_neg (by simp [h2])]
  exact ⟨_, rfl⟩

/-! The title formatter: characterization by the leading digit run. -/

theorem takeDigits_of_digits :
    ∀ ds : List Char, (∀ d ∈ ds, d.isDigit = true) →
      ∀ (c : Char) (rest : List Char), c.isDigit = false →
        takeDigits (ds ++ c :: rest) = (ds, c :: rest) := by
  intro ds
  induction ds with
  | nil =>
    intro _ c rest hc
    show takeDigits (c :: rest) = ([], c :: rest)
    simp [takeDigits, hc]
  | cons d ds ih =>
    intro h c rest hc
    have hd : d.isDigit = true := h d (List.mem_cons_self d ds)
    show takeDigits (d :: (ds ++ c :: rest)) = (d :: ds, c :: rest)
    simp [takeDigits, hd, ih (fun x hx => h x (List.mem_cons_of_mem _ hx)) c rest hc]

theorem takeDigits_all :
    ∀ l : List Char, (∀ d ∈ l, d.isDigit = true) → takeDigits l = (l, []) := by
  intro l
  induction l with
  | nil => intro _; rfl
  | cons d ds ih =>
    intro h
    have hd : d.isDigit = true := h d (List.mem_cons_self d ds)
    simp [takeDigits, hd, ih (fun x hx => h x (List.mem_cons_of_mem _ hx))]

theorem btf_insert {s : String} {ds : List Char} {c : Char} {rest : List Char}
    (hs : s.data = ds ++ c :: rest) (hds0 : ds ≠ []) (hds : ∀ d ∈ ds, d.isDigit = true)
    (hc : c.isDigit = false) (hdot : c ≠ '.') (hws : isPySpace c = false) :
    book_title_formatter s = ⟨ds ++ '.' :: ' ' :: c :: rest⟩ := by
  unfold book_title_formatter
  rw [hs, takeDigits_of_digits ds hds c rest hc]
  cases ds with
  | nil => exact absurd rfl hds0
  | cons d ds' =>
    have hcond : (c.isDigit || c == '.' || isPySpace c) = false := by
      simp [hc, hws, hdot]
    show (if c.isDigit || c == '.' || isPySpace c then s
      else ⟨(d :: ds') ++ '.' :: ' ' :: c :: rest⟩) = ⟨(d :: ds') ++ '.' :: ' ' :: c :: rest⟩
    rw [hcond]
    simp

theorem btf_unchanged {s : String} {ds : List Char} {c : Char} {rest : List Char}
    (hs : s.data = ds ++ c :: rest) (hds : ∀ d ∈ ds, d.isDigit = true)
    (hc : c.isDigit = false)
    (hsep : ds = [] ∨ c = '.' ∨ isPySpace c = true) :
    book_title_formatter s = s := by
  unfold book_title_formatter
  rw [hs, takeDigits_of_digits ds hds c rest hc]
  cases ds with
  | nil => rfl
  | cons d ds' =>
    have hcond : (c.isDigit || c == '.' || isPySpace c) = true := by
      rcases hsep with h | h | h
      · exact absurd h (by simp)
      · simp [h]
      · simp [h]
    show (if c.isDigit || c == '.' || isPySpace c then s
      else ⟨(d :: ds') ++ '.' :: ' ' :: c :: rest⟩) = s
    rw [hcond]
    simp

theorem btf_alldigits {s : String} (h : ∀ d ∈ s.data, d.isDigit = true) :
    book_title_formatter s = s := by
  unfold book_title_formatter
  rw [takeDigits_all s.data h]
  cases hd : s.data with
  | nil => rfl
  | cons d tl => rfl

/-! The verse indicator: one link shape, blank exactly for unreferenced
verses. -/

theorem indicatorLink_ne_empty (b c v : Nat) : ¬ indicatorLink b c v = "" := by
  intro h
  have hd := congrArg String.data h
  unfold indicatorLink at hd
  rw [String.data_append, String.data_append] at hd
  have h1 := List.append_eq_nil.mp hd
  have h2 := List.append_eq_nil.mp h1.1
  exact absurd h2.1 (by decide)

theorem xMem_nil (k : Coord) : xMem [] k = false := rfl

theorem xMem_isEmpty_false {m : XrefMap} {k : Coord} (h : xMem m k = true) :
    m.isEmpty = false := by
  cases m with
  | nil => exact absurd h (by simp [xMem])
  | cons a l => rfl

theorem indicators_eq_if (bid chap verse : Nat) (xf xt : XrefMap) :
    generate_verse_indicators bid chap verse xf xt =
      if xMem xf (bid, chap, verse) || xMem xt (bid, chap, verse) then
        indicatorLink bid chap verse
      else "" := by
  unfold generate_verse_indicators
  by_cases h1 : (xf.isEmpty && xt.isEmpty) = true
  · rw [if_pos h1]
    obtain ⟨ha, hb⟩ : xf.isEmpty = true ∧ xt.isEmpty = true := by
      constructor <;> simp_all
    have hxf : xf = [] := List.isEmpty_iff.mp ha
    have hxt : xt = [] := List.isEmpty_iff.mp hb
    subst hxf
    subst hxt
    simp [xMem]
  · rw [if_neg h1]
    simp only []
    cases hf : xMem xf (bid, chap, verse) with
    | true =>
      have hxf := xMem_isEmpty_false hf
      cases ht : xMem xt (bid, chap, verse) with
      | true =>
        have hxt := xMem_isEmpty_false ht
        simp [hf, ht, hxf, hxt]
      | false => simp [hf, ht, hxf]
    | false =>
      cases ht : xMem xt (bid, chap, verse) with
      | true =>
        have hxt := xMem_isEmpty_false ht
        simp [hf, ht, hxt]
      | false => simp [hf, ht]

/-! # The claims -/

/-- C1: the playOrder values create_epub writes into the navigation tree are
exactly 1..N in traversal order: the mapped playOrder list is literally
List.range' 1 N for N the number of navigation nodes, so the values are a
permutation of 1..N, strictly increasing along the pre-order traversal
book, chapter, verse, with no duplicates and no reversals; and the
cross-reference node, when the cross-reference page is produced, is the last
node, carrying the largest playOrder N. -/
theorem C1_playorder (books : Books) (verses : Verses) (xf xt : XrefMap) (out : EpubOut)
    (h : create_epub books verses xf xt = some out) :
    out.nav.map NavPoint.playOrder = List.range' 1 out.nav.length ∧
    ((generate_cross_reference_section books xf xt).isSome = true →
      ∃ pre, out.nav = pre ++ [⟨"x", out.nav.length, "Cross References", "x.html#c"⟩]) := by
  obtain ⟨bl, r, hbl, hpb, hbl2, hidx, hchap, hxp, hman, hspine, hnav⟩ :=
    create_epub_shape books verses xf xt out h
  obtain ⟨n, hn1, hn2⟩ := processBooks_nav_po books verses xf xt _ 1 r hpb
  have hlen : r.nav.length = n := by
    have hc := congrArg List.length hn1
    simpa using hc
  cases hx : (generate_cross_reference_section books xf xt).isSome with
  | false =>
    rw [hx] at hnav
    rw [if_neg Bool.false_ne_true, List.append_nil] at hnav
    constructor
    · rw [hnav, hn1, hlen]
    · intro hcontra
      exact Bool.noConfusion hcontra
  | true =>
    rw [hx] at hnav
    rw [if_pos rfl] at hnav
    have hol : out.nav.length = n + 1 := by
      rw [hnav]
      simp [hlen]
    constructor
    · rw [hnav, List.map_append, hn1]
      have hlen2 : (r.nav ++
          [(⟨"x", r.po, "Cross References", "x.html#c"⟩ : NavPoint)]).length = n + 1 := by
        simp [hlen]
      rw [hlen2]
      have hcat : List.range' 1 (n + 1) = List.range' 1 n ++ [1 + n] := by
        have hcc := @List.range'_concat 1 1 n
        simpa using hcc
      rw [hcat, hn2]
      rfl
    · intro _
      refine ⟨r.nav, ?_⟩
      rw [hol, hnav, hn2, show 1 + n = n + 1 from by omega]

/-- C1 witness: the sample package with a cross-reference page. -/
theorem C1_playorder_witness :
    ((create_epub exBooks exVerses exXf exXt).getD default).nav.map NavPoint.playOrder =
      List.range' 1 (((create_epub exBooks exVerses exXf exXt).getD default).nav.length) ∧
    ((generate_cross_reference_section exBooks exXf exXt).isSome = true →
      ∃ pre, ((create_epub exBooks exVerses exXf exXt).getD default).nav = pre ++
        [⟨"x", (((create_epub exBooks exVerses exXf exXt).getD default)).nav.length,
          "Cross References", "x.html#c"⟩]) :=
  C1_playorder exBooks exVerses exXf exXt
    ((create_epub exBooks exVerses exXf exXt).getD default) (by rfl)

/-- C4: corrected abort condition.  The assembler aborts (the one
IndexError of the empty chapter-key subscript, caught by the exit handler)
exactly when some book id of the verse mapping has a truthy name and an
empty chapter dict; an empty book mapping or an empty verse mapping does
NOT make it abort. -/
theorem C4_abort_iff (books : Books) (verses : Verses) (xf xt : XrefMap) :
    create_epub books verses xf xt = none ↔
      ∃ bid ∈ verses.map Prod.fst, truthyName (pyGetB books bid) = true ∧
        vLookup verses bid = [] :=
  create_epub_eq_none_iff books verses xf xt

/-- C4 counterexample: with no books at all and an empty verse mapping the
assembler does not abort; it produces a package. -/
theorem C4_empty_inputs_succeed :
    (create_epub [] [] [] []).isSome = true ∧ create_epub [] [] [] [] ≠ none := by
  constructor
  · decide
  · decide

/-- C5: corrected stripper contract.  The stripper satisfies the stated
example strippings and maps the empty string to itself, but on a missing
text (None) it returns None unchanged, not the empty string: the `if not
text: return text` guard returns the falsy input itself. -/
theorem C5_stripper_examples :
    strip_mysword_tags_py none = none ∧
    strip_mysword_tags_py (some "") = some "" ∧
    strip_mysword_tags "<FI>in<Fi> the beginning<CM>" = "in the beginning" ∧
    strip_mysword_tags "" = "" ∧
    strip_mysword_tags "<ZZ>hi</ZZ>" = "hi" := by
  refine ⟨rfl, rfl, by decide, rfl, by decide⟩

/-- C5 counterexample: strip(None) is not the empty string. -/
theorem C5_strip_none_not_empty : ¬ strip_mysword_tags_py none = some "" := by decide

/-- C7: the indicator of a verse is one fixed link whenever the verse
appears in the outgoing index, the incoming index, or both (the same glyph,
class and href to the verse's cross-reference anchor in all three cases),
and it is empty exactly when the verse appears in neither index. -/
theorem C7_indicator (bid chap verse : Nat) (xf xt : XrefMap) :
    generate_verse_indicators bid chap verse xf xt =
      (if xMem xf (bid, chap, verse) || xMem xt (bid, chap, verse) then
        indicatorLink bid chap verse
      else "") ∧
    (generate_verse_indicators bid chap verse xf xt = "" ↔
      xMem xf (bid, chap, verse) = false ∧ xMem xt (bid, chap, verse) = false) := by
  refine ⟨indicators_eq_if bid chap verse xf xt, ?_⟩
  rw [indicators_eq_if]
  cases hf : xMem xf (bid, chap, verse) with
  | true => simp [indicatorLink_ne_empty bid chap verse]
  | false =>
    cases ht : xMem xt (bid, chap, verse) with
    | true => simp [indicatorLink_ne_empty bid chap verse]
    | false => simp

/-- C9: the tag stripper is idempotent: a second application of the full
pipeline (tag passes, safety net, whitespace collapse, trim) leaves the
first application's output unchanged, for every input string. -/
theorem C9_strip_idempotent (s : String) :
    strip_mysword_tags (strip_mysword_tags s) = strip_mysword_tags s :=
  strip_mysword_tags_idem s

/-- C6: when the name decomposes as a leading all-digit run followed by a
first non-digit character c, the formatter inserts a period and a space
after the run exactly when the run is non-empty and c is neither a period
nor whitespace, and returns the name unchanged otherwise; the four stated
examples hold. -/
theorem C6_title_formatter (s : String) (ds : List Char) (c : Char) (rest : List Char)
    (hs : s.data = ds ++ c :: rest)
    (hds : ∀ d ∈ ds, d.isDigit = true)
    (hc : c.isDigit = false) :
    (book_title_formatter s =
      if ds ≠ [] ∧ c ≠ '.' ∧ isPySpace c = false then
        (⟨ds ++ '.' :: ' ' :: c :: rest⟩ : String)
      else s) ∧
    book_title_formatter "1Samuel" = "1. Samuel" ∧
    book_title_formatter "Genesis" = "Genesis" ∧
    book_title_formatter "3John" = "3. John" ∧
    book_title_formatter "1. Timothy" = "1. Timothy" := by
  refine ⟨?_, by decide, by decide, by decide, by decide⟩
  by_cases h1 : ds ≠ [] ∧ c ≠ '.' ∧ isPySpace c = false
  · rw [if_pos h1]
    exact btf_insert hs h1.1 hds hc h1.2.1 h1.2.2
  · rw [if_neg h1]
    apply btf_unchanged hs hds hc
    by_cases hds0 : ds = []
    · exact Or.inl hds0
    · by_cases hdot : c = '.'
      · exact Or.inr (Or.inl hdot)
      · by_cases hws : isPySpace c = true
        · exact Or.inr (Or.inr hws)
        · exact absurd ⟨hds0, hdot, by simpa using hws⟩ h1

/-- C6 witness: the decomposition of "1Samuel". -/
theorem C6_title_formatter_witness :
    (book_title_formatter "1Samuel" =
      if (['1'] : List Char) ≠ [] ∧ 'S' ≠ '.' ∧ isPySpace 'S' = false then
        (⟨['1'] ++ '.' :: ' ' :: 'S' :: "amuel".data⟩ : String)
      else "1Samuel") ∧
    book_title_formatter "1Samuel" = "1. Samuel" ∧
    book_title_formatter "Genesis" = "Genesis" ∧
    book_title_formatter "3John" = "3. John" ∧
    book_title_formatter "1. Timothy" = "1. Timothy" :=
  C6_title_formatter "1Samuel" ['1'] 'S' "amuel".data (by decide) (by decide) (by decide)

/-- C8: replacing every missing verse text by the empty string leaves the
assembler's output literally unchanged (so a null text never makes it
raise), and a cross-referenced coordinate whose book id is absent from the
mapping is still rendered: the cross-reference page exists and contains
that coordinate's entry, whose label is the synthesized placeholder "Book
id". -/
theorem C8_placeholder_totality (books : Books) (verses : Verses) (xf xt : XrefMap)
    (k : Coord) (hk : k ∈ xrefKeys xf xt) (hb : pyGetB books k.1 = none) :
    create_epub books (normVerses verses) xf xt = create_epub books verses xf xt ∧
    xrefVerseLabel books k.1 = "Book " ++ natStr k.1 ∧
    ∃ page, generate_cross_reference_section books xf xt = some page ∧
      ∃ s1 s2, page = s1 ++ (joinAll (xrefEntry books xf xt k) ++ s2) := by
  refine ⟨create_epub_norm books verses xf xt, xrefVerseLabel_placeholder books k.1 hb, ?_⟩
  obtain ⟨page, hpage⟩ := xref_isSome_of_mem books xf xt k hk
  exact ⟨page, hpage, xref_page_has_entry books xf xt k page hpage hk⟩

/-- C8 witness: cross-reference data naming the unmapped book 9. -/
theorem C8_placeholder_totality_witness :
    create_epub cxBooks (normVerses cxVerses) cxXf cxXt =
      create_epub cxBooks cxVerses cxXf cxXt ∧
    xrefVerseLabel cxBooks 9 = "Book " ++ natStr 9 ∧
    ∃ page, generate_cross_reference_section cxBooks cxXf cxXt = some page ∧
      ∃ s1 s2, page = s1 ++ (joinAll (xrefEntry cxBooks cxXf cxXt (9, 1, 1)) ++ s2) :=
  C8_placeholder_totality cxBooks cxVerses cxXf cxXt (9, 1, 1) (by decide) (by decide)

/-- C10: a book id mapped to the empty string is excluded from the book
list, the index page, the chapter pages, the manifest, the spine and the
navigation tree exactly as if the id were absent from the mapping: deleting
its entry from the mapping changes none of those artifacts (presence is
tested by truthiness of the looked-up name, not key membership). -/
theorem C10_falsy_name (books : Books) (verses : Verses) (xf xt : XrefMap) (b0 : Nat)
    (h : pyGetB books b0 = some "") :
    Option.map (fun o => (o.bookList, o.index, o.chapters, o.manifest, o.spine, o.nav))
        (create_epub (books.filter (fun p => !(p.1 == b0))) verses xf xt) =
      Option.map (fun o => (o.bookList, o.index, o.chapters, o.manifest, o.spine, o.nav))
        (create_epub books verses xf xt) := by
  have hg := getName_filter books b0 h
  have hbl : bookListM (books.filter (fun p => !(p.1 == b0))) verses =
      bookListM books verses := by
    unfold bookListM
    exact optMapList_congr _ _ (fun b => bookEntry_congr _ _ verses b (hg b)) _
  have hpb := processBooks_congr (books.filter (fun p => !(p.1 == b0))) books verses xf xt hg
    (sortedKeysN verses) 1
  unfold create_epub
  rw [hbl, hpb]
  cases hblv : bookListM books verses with
  | none => rfl
  | some bl =>
    cases hr : processBooks books verses xf xt 1 (sortedKeysN verses) with
    | none => rfl
    | some r =>
      have hx : (match generate_cross_reference_section
            (books.filter (fun p => !(p.1 == b0))) xf xt with
          | some s => !(s == "")
          | none => false) =
          (match generate_cross_reference_section books xf xt with
          | some s => !(s == "")
          | none => false) := by
        rw [hasX_eq_isSome, hasX_eq_isSome]
        exact xc_isSome_indep _ _ xf xt
      simp only [Option.map_some']
      rw [hx]

/-- C10 witness: book 2 mapped to the empty name. -/
theorem C10_falsy_name_witness :
    Option.map (fun o => (o.bookList, o.index, o.chapters, o.manifest, o.spine, o.nav))
        (create_epub (exBooksFalsy.filter (fun p => !(p.1 == 2))) exVerses exXf exXt) =
      Option.map (fun o => (o.bookList, o.index, o.chapters, o.manifest, o.spine, o.nav))
        (create_epub exBooksFalsy exVerses exXf exXt) :=
  C10_falsy_name exBooksFalsy exVerses exXf exXt 2 (by decide)

/-- C2: with duplicate-free dict key lists, every manifest item id of the
package is unique; the spine is literally the manifest's id list, so every
spine idref matches one manifest item and every item has exactly one spine
entry; the chapter manifest items, spine entries and chapter files run in
lockstep over the same book/chapter traversal (one of each per chapter
page); and the traversal is index first, then the kept books by ascending
id each with its chapters ascending, then the cross-reference entry last
exactly when that page is produced. -/
theorem C2_manifest_spine (books : Books) (verses : Verses) (xf xt : XrefMap) (out : EpubOut)
    (hv : (verses.map Prod.fst).Nodup)
    (hc : ∀ p ∈ verses, (p.2.map Prod.fst).Nodup)
    (h : create_epub books verses xf xt = some out) :
    (out.manifest.map Prod.fst).Nodup ∧
    out.spine = out.manifest.map Prod.fst ∧
    out.manifest.map Prod.fst = "index" ::
      ((sortedKeysN verses).filter (fun bid => truthyName (pyGetB books bid))).flatMap
        (fun bid => (sortedKeysN (vLookup verses bid)).map (fun c => itemId bid c)) ++
      (if (generate_cross_reference_section books xf xt).isSome then ["xrefs"] else []) ∧
    out.chapters.map PageFile.fname =
      ((sortedKeysN verses).filter (fun bid => truthyName (pyGetB books bid))).flatMap
        (fun bid => (sortedKeysN (vLookup verses bid)).map
          (fun c => "OEBPS/" ++ chapFname bid c)) ∧
    List.Sorted (fun a b => a ≤ b)
      ((sortedKeysN verses).filter (fun bid => truthyName (pyGetB books bid))) ∧
    ∀ bid, List.Sorted (fun a b => a ≤ b) (sortedKeysN (vLookup verses bid)) := by
  obtain ⟨bl, r, hbl, hpb, hbl2, hidx, hchap, hxp, hman, hspine, hnav⟩ :=
    create_epub_shape books verses xf xt out h
  obtain ⟨hm, hs, hf⟩ := processBooks_struct books verses xf xt _ 1 r hpb
  have hfst : out.manifest.map Prod.fst = "index" ::
      ((sortedKeysN verses).filter (fun bid => truthyName (pyGetB books bid))).flatMap
        (fun bid => (sortedKeysN (vLookup verses bid)).map (fun c => itemId bid c)) ++
      (if (generate_cross_reference_section books xf xt).isSome then ["xrefs"] else []) := by
    rw [hman]
    simp only [List.map_cons, List.map_append, apply_ite (List.map Prod.fst)]
    rw [hm, map_fst_manifest_flatMap]
    simp
  refine ⟨?_, ?_, hfst, ?_, ?_, ?_⟩
  · rw [hfst]
    exact spine_ids_nodup books verses _ hv hc
  · rw [hspine, hfst, hs]
  · rw [hchap, hf]
  · exact List.Pairwise.filter _ (sortedKeysN_sorted verses)
  · intro bid
    exact sortedKeysN_sorted _

/-- C2 witness: the sample package. -/
theorem C2_manifest_spine_witness :
    ((((create_epub exBooks exVerses exXf exXt).getD default)).manifest.map Prod.fst).Nodup ∧
    ((create_epub exBooks exVerses exXf exXt).getD default).spine =
      ((create_epub exBooks exVerses exXf exXt).getD default).manifest.map Prod.fst ∧
    ((create_epub exBooks exVerses exXf exXt).getD default).manifest.map Prod.fst = "index" ::
      ((sortedKeysN exVerses).filter (fun bid => truthyName (pyGetB exBooks bid))).flatMap
        (fun bid => (sortedKeysN (vLookup exVerses bid)).map (fun c => itemId bid c)) ++
      (if (generate_cross_reference_section exBooks exXf exXt).isSome then ["xrefs"] else []) ∧
    ((create_epub exBooks exVerses exXf exXt).getD default).chapters.map PageFile.fname =
      ((sortedKeysN exVerses).filter (fun bid => truthyName (pyGetB exBooks bid))).flatMap
        (fun bid => (sortedKeysN (vLookup exVerses bid)).map
          (fun c => "OEBPS/" ++ chapFname bid c)) ∧
    List.Sorted (fun a b => a ≤ b)
      ((sortedKeysN exVerses).filter (fun bid => truthyName (pyGetB exBooks bid))) ∧
    ∀ bid, List.Sorted (fun a b => a ≤ b) (sortedKeysN (vLookup exVerses bid)) :=
  C2_manifest_spine exBooks exVerses exXf exXt
    ((create_epub exBooks exVerses exXf exXt).getD default)
    (by decide) (by decide) (by rfl)

/-- C3 (amended): a book id absent from the book-name mapping is excluded
from the book list, index page, chapter pages, manifest, spine and
navigation tree, and no other book's output links to it; but the guarantee
extends to the cross-reference page only when the supplied cross-reference
maps themselves never name that book id — xref coordinates are rendered
with looked-up-or-placeholder labels without any filtering against the
book mapping, so xref data naming the absent book leaks into x.html (see
the counterexample). -/
theorem C3_absent_book_exclusion (books : Books) (verses : Verses) (xf xt : XrefMap)
    (b : Nat) (out : EpubOut)
    (hb : pyGetB books b = none)
    (hxf : xrefAvoidsBook b xf) (hxt : xrefAvoidsBook b xt)
    (h : create_epub books verses xf xt = some out) :
    (∀ e ∈ out.bookList, e.1 ≠ b) ∧
    (∀ hr ∈ out.index.hrefs, ¬ refsBook b hr) ∧
    (∀ pf ∈ out.chapters, (∀ c, pf.fname ≠ "OEBPS/" ++ chapFname b c) ∧
      ∀ hr ∈ pf.hrefs, ¬ refsBook b hr) ∧
    (∀ p ∈ out.manifest, (∀ c, p.1 ≠ itemId b c) ∧ ∀ c, p.2 ≠ chapFname b c) ∧
    (∀ id0 ∈ out.spine, ∀ c, id0 ≠ itemId b c) ∧
    (∀ np ∈ out.nav, ¬ navMentionsBook b np) ∧
    (∀ hr ∈ xrefPageHrefs books xf xt, ¬ refsBook b hr) := by
  obtain ⟨bl, r, hbl, hpb, hbl2, hidx, hchap, hxp, hman, hspine, hnav⟩ :=
    create_epub_shape books verses xf xt out h
  obtain ⟨hm, hs, hf⟩ := processBooks_struct books verses xf xt _ 1 r hpb
  refine ⟨?_, ?_, ?_, ?_, ?_, ?_, xrefPageHrefs_avoid books xf xt b hxf hxt⟩
  · intro e he
    rw [hbl2] at he
    exact truthy_ne hb (bookListM_mem books verses bl hbl e he)
  · intro hr hhr
    rw [hidx] at hhr
    simp only [] at hhr
    unfold indexHrefs at hhr
    obtain ⟨e, he, hee⟩ := List.mem_map.mp hhr
    rw [← hee]
    exact not_refsBook_chapFname (truthy_ne hb (bookListM_mem books verses bl hbl e he))
  · intro pf hpf
    rw [hchap] at hpf
    obtain ⟨bid, _, htr, ⟨c', hfn⟩, hhr⟩ :=
      processBooks_files_mem books verses xf xt _ 1 r hpb pf hpf
    have hne := truthy_ne hb htr
    constructor
    · intro c heq
      rw [hfn] at heq
      exact hne (chapFname_inj (string_append_left_cancel heq)).1
    · intro hr hh
      exact chapterHrefShape_not_refs hne (hhr hr hh)
  · intro p hp
    rw [hman] at hp
    rcases List.mem_cons.mp hp with h1 | h1
    · subst h1
      constructor
      · intro c heq
        exact itemId_ne_index b c heq.symm
      · intro c heq
        exact ihtml_ne_chapFname b c heq
    · rcases List.mem_append.mp h1 with h2 | h2
      · rw [hm] at h2
        obtain ⟨bid, hbid, hpm⟩ := List.mem_flatMap.mp h2
        obtain ⟨c', _, hpc⟩ := List.mem_map.mp hpm
        have hne := truthy_ne hb (List.mem_filter.mp hbid).2
        rw [← hpc]
        constructor
        · intro c heq
          exact hne (itemId_inj heq).1
        · intro c heq
          exact hne (chapFname_inj heq).1
      · by_cases hcnd : (generate_cross_reference_section books xf xt).isSome = true
        · rw [if_pos hcnd] at h2
          simp only [List.mem_singleton] at h2
          subst h2
          constructor
          · intro c heq
            exact itemId_ne_xrefs b c heq.symm
          · intro c heq
            exact xhtml_ne_chapFname b c heq
        · rw [if_neg hcnd] at h2
          simp at h2
  · intro id0 hid
    rw [hspine] at hid
    rcases List.mem_cons.mp hid with h1 | h1
    · subst h1
      intro c heq
      exact itemId_ne_index b c heq.symm
    · rcases List.mem_append.mp h1 with h2 | h2
      · rw [hs] at h2
        obtain ⟨bid, hbid, hsm⟩ := List.mem_flatMap.mp h2
        obtain ⟨c', _, hsc⟩ := List.mem_map.mp hsm
        have hne := truthy_ne hb (List.mem_filter.mp hbid).2
        rw [← hsc]
        intro c heq
        exact hne (itemId_inj heq).1
      · by_cases hcnd : (generate_cross_reference_section books xf xt).isSome = true
        · rw [if_pos hcnd] at h2
          simp only [List.mem_singleton] at h2
          subst h2
          intro c heq
          exact itemId_ne_xrefs b c heq.symm
        · rw [if_neg hcnd] at h2
          simp at h2
  · intro np hnp
    rw [hnav] at hnp
    rcases List.mem_append.mp hnp with h1 | h1
    · obtain ⟨bid, _, htr, hshape⟩ := processBooks_nav_mem books verses xf xt _ 1 r hpb np h1
      exact navOfBook_not_mentions (truthy_ne hb htr) hshape
    · by_cases hcnd : (generate_cross_reference_section books xf xt).isSome = true
      · rw [if_pos hcnd] at h1
        simp only [List.mem_singleton] at h1
        subst h1
        exact xnode_not_mentions b r.po
      · rw [if_neg hcnd] at h1
        simp at h1

/-- C3 witness: book 9 has verse data but no mapping entry, and the
cross-reference maps avoid book 9. -/
theorem C3_absent_book_exclusion_witness :
    (∀ e ∈ ((create_epub cxBooks cxVerses exXf exXt).getD default).bookList, e.1 ≠ 9) ∧
    (∀ hr ∈ ((create_epub cxBooks cxVerses exXf exXt).getD default).index.hrefs,
      ¬ refsBook 9 hr) ∧
    (∀ pf ∈ ((create_epub cxBooks cxVerses exXf exXt).getD default).chapters,
      (∀ c, pf.fname ≠ "OEBPS/" ++ chapFname 9 c) ∧ ∀ hr ∈ pf.hrefs, ¬ refsBook 9 hr) ∧
    (∀ p ∈ ((create_epub cxBooks cxVerses exXf exXt).getD default).manifest,
      (∀ c, p.1 ≠ itemId 9 c) ∧ ∀ c, p.2 ≠ chapFname 9 c) ∧
    (∀ id0 ∈ ((create_epub cxBooks cxVerses exXf exXt).getD default).spine,
      ∀ c, id0 ≠ itemId 9 c) ∧
    (∀ np ∈ ((create_epub cxBooks cxVerses exXf exXt).getD default).nav,
      ¬ navMentionsBook 9 np) ∧
    (∀ hr ∈ xrefPageHrefs cxBooks exXf exXt, ¬ refsBook 9 hr) :=
  C3_absent_book_exclusion cxBooks cxVerses exXf exXt 9
    ((create_epub cxBooks cxVerses exXf exXt).getD default)
    (by decide) (by unfold xrefAvoidsBook; decide) (by unfold xrefAvoidsBook; decide) (by rfl)

/-- C3 counterexample: with cross-reference data that names book 9 (absent
from the mapping), the package's cross-reference page inserts a hyperlink
whose target is book 9's chapter page — while no such chapter page exists
among the produced files (a dangling link) — and labels the coordinate
with the synthesized name "Book 9", refuting the claim that no emitted
artifact ever mentions the absent book even when cross-reference data is
supplied. -/
theorem C3_xref_leaks_absent_book :
    pyGetB cxBooks 9 = none ∧
    (create_epub cxBooks cxVerses cxXf []).isSome = true ∧
    (chapFname 9 1 ++ "#" ++ natStr 1) ∈ xrefPageHrefs cxBooks cxXf [] ∧
    (∀ pf ∈ ((create_epub cxBooks cxVerses cxXf []).getD default).chapters,
      pf.fname ≠ "OEBPS/" ++ chapFname 9 1) ∧
    xrefVerseLabel cxBooks 9 = "Book 9" := by
  refine ⟨rfl, by decide, by decide, by decide, by decide⟩

end MyswordEpub
